/-
  Verification of the cake-stats repository (github.com/galpt/cake-stats).

  Shallow embedding of the two core packages:
    - pkg/parser/parser.go  : parsing of `tc -s qdisc` text output, multi-queue
      (cake_mq) aggregation;
    - pkg/history/history.go: per-interface ring buffers and delta/rate engine.

  Modelling conventions:
    - Go strings are Lean `String`; all Go string-library operations used by the
      code (strings.Split, Fields, TrimSpace, HasPrefix, Contains, Index, ...)
      are re-implemented below on `String.data` (the character list) with the
      same semantics.  tc output is ASCII, so Go byte indexing and character
      indexing coincide.
    - Go uint64 is `Nat`; additions that can wrap in Go are taken modulo 2^64
      (`uadd64`).  strconv.ParseUint bounds are modelled explicitly.
    - Go float64 values (rates, parsed delays) are modelled as `ℚ`.  The
      delay strings and counters occurring in tc output are small decimals, on
      which rational and double arithmetic agree for the comparisons performed.
      strconv.ParseFloat is modelled on its decimal fragment (sign, digits,
      optional fraction, optional exponent), which covers every numeric form
      the code can receive from tc.
    - time.Time is a rational number of seconds; time.Now() becomes an explicit
      `now` parameter (the two consecutive clock reads in Record and
      newIfaceState are identified).  time.Time.Unix() is `Rat.floor`.
    - Go maps are association lists; only lookup / insert / delete semantics
      are used by the code, so iteration order never matters for the results.
-/
import Mathlib

namespace Cake

/-! ## Go string-library operations (strings.*) -/

/-- Generic character-splitting: models strings.Split for a one-character
separator (used with the newline and comma separators).  Always returns at
least one (possibly empty) piece, as Go does. -/
def splitCh (p : Char → Bool) : List Char → List (List Char)
  | [] => [[]]
  | c :: t =>
    let r := splitCh p t
    if p c then [] :: r
    else
      match r with
      | [] => [[c]]
      | h :: t2 => (c :: h) :: t2

/-- strings.Split(raw, "\n"). -/
def splitLines (s : String) : List String :=
  (splitCh (fun c => c = '\n') s.data).map String.mk

/-- strings.Fields: whitespace-separated fields, empty runs dropped. -/
def strFields (s : String) : List String :=
  (((splitCh Char.isWhitespace s.data).filter (fun w => w ≠ [])).map String.mk)

/-- strings.TrimSpace. -/
def strTrim (s : String) : String :=
  String.mk (((s.data.dropWhile Char.isWhitespace).reverse.dropWhile
    Char.isWhitespace).reverse)

/-- strings.HasPrefix. -/
def strStarts (s pre : String) : Bool :=
  pre.data.isPrefixOf s.data

/-- strings.HasSuffix. -/
def strEnds (s sfx : String) : Bool :=
  sfx.data.isSuffixOf s.data

/-- strings.TrimPrefix (drops the leading occurrence when present). -/
def trimPre (s pre : String) : String :=
  if strStarts s pre then String.mk (s.data.drop pre.data.length) else s

/-- strings.TrimSuffix (drops the trailing occurrence when present). -/
def trimSuf (s sfx : String) : String :=
  if strEnds s sfx then String.mk (s.data.take (s.data.length - sfx.data.length))
  else s

/-- strings.TrimRight with a cutset: drops trailing characters belonging to
the set. -/
def trimRightCutset (s : String) (cut : List Char) : String :=
  String.mk ((s.data.reverse.dropWhile (fun c => cut.contains c)).reverse)

/-- Substring occurrence test on character lists. -/
def subIn (pat : List Char) : List Char → Bool
  | [] => pat.isPrefixOf []
  | c :: t => pat.isPrefixOf (c :: t) || subIn pat t

/-- strings.Contains. -/
def strContains (s pat : String) : Bool :=
  subIn pat.data s.data

/-- strings.Index for a one-character needle, as an optional index
(Go returns -1 for "not found"). -/
def idxOfCh (s : String) (c : Char) : Option Nat :=
  s.data.findIdx? (fun x => x = c)

/-- Go slice expression s[i:j] on an ASCII string (character indices). -/
def strSlice (s : String) (i j : Nat) : String :=
  String.mk ((s.data.drop i).take (j - i))

/-- strings.SplitN(s, "/", 2). -/
def splitN2Slash (s : String) : List String :=
  match idxOfCh s '/' with
  | none => [s]
  | some i => [String.mk (s.data.take i), String.mk (s.data.drop (i + 1))]

/-! ## Go numeric parsing (strconv.*) -/

/-- Value of a decimal digit list (most significant first). -/
def digitsVal (ds : List Char) : Nat :=
  ds.foldl (fun a c => 10 * a + (c.toNat - 48)) 0

/-- strconv.ParseFloat on its decimal fragment, as an exact rational:
optional sign, a mantissa of digits with an optional fractional part (at
least one digit overall), and an optional decimal exponent.  Inputs outside
this fragment (hex floats, inf, nan) do not occur in tc output. -/
def parseMantissa (cs : List Char) : Option ℚ :=
  let ip := cs.takeWhile Char.isDigit
  let rest := cs.dropWhile Char.isDigit
  match rest with
  | [] => if ip = [] then none else some ((digitsVal ip : ℚ))
  | '.' :: fp =>
    if fp.all Char.isDigit ∧ (ip ≠ [] ∨ fp ≠ []) then
      some ((digitsVal ip : ℚ) + (digitsVal fp : ℚ) / (10 : ℚ) ^ fp.length)
    else none
  | _ => none

/-- Exponent part after the mantissa: empty, or ('e'|'E') sign? digits. -/
def parseExpPart : List Char → Option ℤ
  | [] => some 0
  | e :: rest =>
    if e = 'e' ∨ e = 'E' then
      match rest with
      | '+' :: ds => if ds ≠ [] ∧ ds.all Char.isDigit then some (digitsVal ds) else none
      | '-' :: ds => if ds ≠ [] ∧ ds.all Char.isDigit then some (-(digitsVal ds : ℤ)) else none
      | ds => if ds ≠ [] ∧ ds.all Char.isDigit then some (digitsVal ds) else none
    else none

def parseFloatQ (s : String) : Option ℚ :=
  let cs := s.data
  let (sgn, cs) : ℚ × List Char :=
    match cs with
    | '+' :: t => (1, t)
    | '-' :: t => (-1, t)
    | t => (1, t)
  let mant := cs.takeWhile (fun c => ¬(c = 'e' ∨ c = 'E'))
  let expPart := cs.dropWhile (fun c => ¬(c = 'e' ∨ c = 'E'))
  match parseMantissa mant, parseExpPart expPart with
  | some m, some e => some (sgn * m * (10 : ℚ) ^ e)
  | _, _ => none

/-- uint64 addition (wraps at 2^64 as in Go). -/
def uadd64 (a b : Nat) : Nat := (a + b) % 2 ^ 64

/-- parser.go parseUint64: strips the trailing unit cutset then parses with
strconv.ParseUint(s, 10, 64); any error (empty, non-digit, overflow) yields 0. -/
def parseUint64 (s : String) : Nat :=
  let t := trimRightCutset s ['b', 'B', 'k', 'K', 'm', 'M', 'g', 'G', 'p', 'P']
  let ds := t.data
  if ds ≠ [] ∧ ds.all Char.isDigit ∧ digitsVal ds < 2 ^ 64 then digitsVal ds else 0

/-! ## Data model (pkg/types/types.go) -/

/-- types.CakeTier: per-tier statistics.  uint64 counters are Nat. -/
structure CakeTier where
  Name : String
  Thresh : String
  Target : String
  Interval : String
  PkDelay : String
  AvDelay : String
  SpDelay : String
  Backlog : String
  Pkts : Nat
  Bytes : Nat
  WayInds : Nat
  WayMiss : Nat
  WayCols : Nat
  Drops : Nat
  Marks : Nat
  AckDrop : Nat
  SpFlows : Nat
  BkFlows : Nat
  UnFlows : Nat
  MaxLen : Nat
  Quantum : Nat
  deriving DecidableEq, Repr

/-- The Go zero value of CakeTier. -/
def emptyTier : CakeTier :=
  { Name := "", Thresh := "", Target := "", Interval := "", PkDelay := ""
    AvDelay := "", SpDelay := "", Backlog := "", Pkts := 0, Bytes := 0
    WayInds := 0, WayMiss := 0, WayCols := 0, Drops := 0, Marks := 0
    AckDrop := 0, SpFlows := 0, BkFlows := 0, UnFlows := 0, MaxLen := 0
    Quantum := 0 }

instance : Inhabited CakeTier := ⟨emptyTier⟩

/-- types.CakeStats: one canonical per-interface record.  UpdatedAt is an
abstract timestamp; the four derived float64 fields are rationals. -/
structure CakeStats where
  Interface : String
  Handle : String
  Direction : String
  Bandwidth : String
  DiffservMode : String
  RTT : String
  Overhead : String
  DualMode : String
  FwmarkMask : String
  NATEnabled : Bool
  ATMMode : String
  MPU : String
  MemLimit : String
  RawHeader : String
  WashEnabled : Bool
  SentBytes : Nat
  SentPkts : Nat
  Dropped : Nat
  Overlimits : Nat
  Requeues : Nat
  BacklogBytes : String
  BacklogPkts : Nat
  MemoryUsed : String
  MemoryTotal : String
  CapacityEst : String
  MinNetSize : String
  MaxNetSize : String
  MinAdjSize : String
  MaxAdjSize : String
  AvgHdrOffset : String
  Tiers : List CakeTier
  UpdatedAt : Int
  TxBytesPerS : ℚ
  DropsPerS : ℚ
  MaxAvDelayMs : ℚ
  MaxPkDelayMs : ℚ
  deriving DecidableEq, Repr

/-- The Go zero value of CakeStats with UpdatedAt set, i.e.
types.CakeStats\x7bUpdatedAt: time.Now().UTC()\x7d. -/
def emptyStats (now : Int) : CakeStats :=
  { Interface := "", Handle := "", Direction := "", Bandwidth := ""
    DiffservMode := "", RTT := "", Overhead := "", DualMode := ""
    FwmarkMask := "", NATEnabled := false, ATMMode := "", MPU := ""
    MemLimit := "", RawHeader := "", WashEnabled := false
    SentBytes := 0, SentPkts := 0, Dropped := 0, Overlimits := 0
    Requeues := 0, BacklogBytes := "", BacklogPkts := 0, MemoryUsed := ""
    MemoryTotal := "", CapacityEst := "", MinNetSize := "", MaxNetSize := ""
    MinAdjSize := "", MaxAdjSize := "", AvgHdrOffset := "", Tiers := []
    UpdatedAt := now, TxBytesPerS := 0, DropsPerS := 0
    MaxAvDelayMs := 0, MaxPkDelayMs := 0 }

instance : Inhabited CakeStats := ⟨emptyStats 0⟩

/-! ## Header parsing (pkg/parser/parser.go, parseHeader) -/

/-- The argument-less keyword cases of parseHeader's option scan. -/
def applyFlagTok (cs : CakeStats) (tok : String) : CakeStats :=
  match tok with
  | "diffserv3" | "diffserv4" | "diffserv8" | "besteffort" | "precedence" =>
    { cs with DiffservMode := tok }
  | "atm" => { cs with ATMMode := "atm" }
  | "ptm" => { cs with ATMMode := "ptm" }
  | "noatm" | "raw" => { cs with ATMMode := "noatm" }
  | "autorate-ingress" => { cs with Bandwidth := "autorate-ingress" }
  | "flowblind" | "srchost" | "dsthost" | "hosts" | "flows" =>
    { cs with DualMode := tok }
  | "nat" => { cs with NATEnabled := true }
  | "nonat" => { cs with NATEnabled := false }
  | "wash" => { cs with WashEnabled := true }
  | "nowash" => { cs with WashEnabled := false }
  | "dual-srchost" | "dual-dsthost" | "triple-isolate" | "single" =>
    { cs with DualMode := tok }
  | "ingress" => { cs with Direction := "ingress" }
  | _ => cs

/-- The option-token scan of parseHeader (the loop from field index 5).
Argument-taking keywords consume the next token when present. -/
def parseHeaderTokens : CakeStats → List String → CakeStats
  | cs, [] => cs
  | cs, "bandwidth" :: arg :: rest2 => parseHeaderTokens { cs with Bandwidth := arg } rest2
  | cs, "fwmark" :: arg :: rest2 => parseHeaderTokens { cs with FwmarkMask := arg } rest2
  | cs, "rtt" :: arg :: rest2 => parseHeaderTokens { cs with RTT := arg } rest2
  | cs, "overhead" :: arg :: rest2 => parseHeaderTokens { cs with Overhead := arg } rest2
  | cs, "mpu" :: arg :: rest2 => parseHeaderTokens { cs with MPU := arg } rest2
  | cs, "memlimit" :: arg :: rest2 => parseHeaderTokens { cs with MemLimit := arg } rest2
  | cs, tok :: rest => parseHeaderTokens (applyFlagTok cs tok) rest

/-- parser.go parseHeader: handle from field 2 (":" suffix stripped),
interface from field 4, direction defaulted to egress, then the option
token scan. -/
def parseHeader (cs : CakeStats) (line : String) : CakeStats :=
  let fs := strFields (strTrim line)
  if fs.length < 5 then cs
  else
    let cs := { cs with
      Handle := trimSuf (fs.getD 2 "") ":"
      Interface := fs.getD 4 ""
      Direction := "egress" }
    parseHeaderTokens cs (fs.drop 5)

/-! ## Statistic-line parsing (pkg/parser/parser.go) -/

/-- One comma-separated segment of the parenthesised part of a Sent line:
space-separated tokens scanned as key/value pairs in steps of two. -/
def parseSentPairs (cs : CakeStats) (tokens : List String) : CakeStats :=
  match tokens with
  | k :: v :: rest =>
    let cs :=
      match k with
      | "dropped" => { cs with Dropped := parseUint64 v }
      | "overlimits" => { cs with Overlimits := parseUint64 v }
      | "requeues" => { cs with Requeues := parseUint64 v }
      | _ => cs
    parseSentPairs cs rest
  | _ => cs

/-- parser.go parseSentLine: "Sent N bytes M pkt (dropped X, overlimits Y
requeues Z)". -/
def parseSentLine (cs : CakeStats) (line : String) : CakeStats :=
  let fs := strFields line
  let cs :=
    if fs.length ≥ 4 then
      { cs with SentBytes := parseUint64 (fs.getD 1 "")
                SentPkts := parseUint64 (fs.getD 3 "") }
    else cs
  match idxOfCh line '(', idxOfCh line ')' with
  | some s, some e =>
    if s < e then
      (splitCh (fun c => c = ',') (strSlice line (s + 1) e).data).foldl
        (fun cs part => parseSentPairs cs (strFields (strTrim (String.mk part)))) cs
    else cs
  | _, _ => cs

/-- parser.go parseBacklogLine: "backlog Nb Mp requeues K". -/
def parseBacklogLine (cs : CakeStats) (line : String) : CakeStats :=
  let fs := strFields line
  if fs.length ≥ 3 then
    { cs with BacklogBytes := fs.getD 1 ""
              BacklogPkts := parseUint64 (trimSuf (fs.getD 2 "") "p") }
  else cs

/-- parser.go parseMemoryLine: "memory used: Nb of MMb". -/
def parseMemoryLine (cs : CakeStats) (line : String) : CakeStats :=
  let parts := strFields (strTrim (trimPre line "memory used:"))
  if parts.length ≥ 3 then
    { cs with MemoryUsed := parts.getD 0 "", MemoryTotal := parts.getD 2 "" }
  else cs

/-- parser.go parseMinMax: "label: lo / hi". -/
def parseMinMax (line : String) : String × String :=
  match idxOfCh line ':' with
  | none => ("", "")
  | some i =>
    let parts := splitN2Slash (strTrim (String.mk (line.data.drop (i + 1))))
    match parts with
    | [lo, hi] => (strTrim lo, strTrim hi)
    | _ => ("", "")

/-! ## Tier table (pkg/parser/parser.go) -/

/-- parser.go knownTierWords (the version including "Tin"). -/
def knownTierWords : List String :=
  ["Bulk", "Best", "Voice", "Video", "CS1", "CS2", "CS3", "CS4",
   "CS5", "CS6", "CS7", "BE", "Tin"]

/-- parser.go isTierHeaderLine. -/
def isTierHeaderLine (first : String) : Bool :=
  knownTierWords.contains first

/-- parser.go parseTierNames: joins the compound names "Best Effort" and
"Tin N"; every other token is a standalone name. -/
def parseTierNames : List String → List String
  | [] => []
  | "Best" :: "Effort" :: rest => "Best Effort" :: parseTierNames rest
  | "Tin" :: n :: rest => ("Tin " ++ n) :: parseTierNames rest
  | w :: rest => w :: parseTierNames rest

/-- Field buffer of the tier table: per field keyword, the row of per-tier
string values.  New rows shadow older ones, matching Go map assignment. -/
def bufGet (buf : List (String × List String)) (field : String) (idx : Nat) : String :=
  match buf with
  | [] => ""
  | (k, v) :: t => if k = field then v.getD idx "" else bufGet t field idx

/-- parser.go assembleTiers: one CakeTier per name, positional values copied
from the field buffer; missing values are "" or 0. -/
def assembleTiers (names : List String) (buf : List (String × List String)) :
    List CakeTier :=
  names.enum.map (fun p =>
    let i := p.1
    let getS := fun f => bufGet buf f i
    let getU := fun f => parseUint64 (bufGet buf f i)
    { Name := p.2, Thresh := getS "thresh", Target := getS "target"
      Interval := getS "interval", PkDelay := getS "pk_delay"
      AvDelay := getS "av_delay", SpDelay := getS "sp_delay"
      Backlog := getS "backlog", Pkts := getU "pkts", Bytes := getU "bytes"
      WayInds := getU "way_inds", WayMiss := getU "way_miss"
      WayCols := getU "way_cols", Drops := getU "drops", Marks := getU "marks"
      AckDrop := getU "ack_drop", SpFlows := getU "sp_flows"
      BkFlows := getU "bk_flows", UnFlows := getU "un_flows"
      MaxLen := getU "max_len", Quantum := getU "quantum" })

/-! ## Block parsing (pkg/parser/parser.go, parseCakeBlock) -/

/-- Intermediate scan state of parseCakeBlock: the record under construction,
the tier names seen, the field buffer, and the inside-tier-table flag. -/
structure BlockScan where
  cs : CakeStats
  tierNames : List String
  buf : List (String × List String)
  inTable : Bool

/-- The per-line classifier of parseCakeBlock (the switch over trimmed line
prefixes). -/
def scanLine (st : BlockScan) (l : String) : BlockScan :=
  let trimmed := strTrim l
  if trimmed = "" then st
  else
    let fields := strFields trimmed
    if fields = [] then st
    else
      if strStarts trimmed "Sent " then
        { st with cs := parseSentLine st.cs trimmed }
      else if strStarts trimmed "backlog " then
        { st with cs := parseBacklogLine st.cs trimmed }
      else if strStarts trimmed "memory used:" then
        { st with cs := parseMemoryLine st.cs trimmed }
      else if strStarts trimmed "capacity estimate:" then
        { st with cs := { st.cs with
            CapacityEst := strTrim (trimPre trimmed "capacity estimate:") } }
      else if strStarts trimmed "min/max network layer size:" then
        let p := parseMinMax trimmed
        { st with cs := { st.cs with MinNetSize := p.1, MaxNetSize := p.2 } }
      else if strStarts trimmed "min/max overhead-adjusted size:" then
        let p := parseMinMax trimmed
        { st with cs := { st.cs with MinAdjSize := p.1, MaxAdjSize := p.2 } }
      else if strStarts trimmed "average network hdr offset:" then
        { st with cs := { st.cs with
            AvgHdrOffset := strTrim (trimPre trimmed "average network hdr offset:") } }
      else if isTierHeaderLine (fields.getD 0 "") then
        { st with tierNames := parseTierNames fields, inTable := true }
      else if st.inTable ∧ fields.length ≥ 2 ∧
          ((fields.getD 0 "").data.getD 0 ' ').isLower then
        { st with buf := (fields.getD 0 "", fields.drop 1) :: st.buf }
      else st

/-- parser.go parseCakeBlock: header line then the per-line scan; the Bool is
Go's ok flag (false only for an empty block). -/
def parseCakeBlock (now : Int) : List String → CakeStats × Bool
  | [] => (emptyStats now, false)
  | header :: rest =>
    let cs0 := { emptyStats now with RawHeader := strTrim header }
    let cs0 := parseHeader cs0 header
    let st := rest.foldl scanLine
      { cs := cs0, tierNames := [], buf := [], inTable := false }
    let cs :=
      if st.tierNames ≠ [] then
        { st.cs with Tiers := assembleTiers st.tierNames st.buf }
      else st.cs
    (cs, true)

/-! ## Multi-queue aggregation (pkg/parser/parser.go) -/

/-- parser.go headerParentHandle: major component of the first "parent X:N"
token pair ("" when absent). -/
def headerParentHandle (line : String) : String :=
  let fs := strFields line
  let rec go : List String → String
    | a :: b :: rest =>
      if a = "parent" then
        match idxOfCh b ':' with
        | some colon => if 0 < colon then String.mk (b.data.take colon) else go (b :: rest)
        | none => go (b :: rest)
      else go (b :: rest)
    | _ => ""
  go fs

/-- parser.go parseBytesStr: "238656b", "4097Kb", "32Mb", "1Gb" to bytes
(uint64 arithmetic; unrecognised input gives 0). -/
def parseBytesStr (s : String) : Nat :=
  let s := strTrim s
  let pu := fun (t : String) =>
    if t.data ≠ [] ∧ t.data.all Char.isDigit ∧ digitsVal t.data < 2 ^ 64 then
      digitsVal t.data
    else 0
  if strEnds s "Gb" then pu (trimSuf s "Gb") * 1024 * 1024 * 1024 % 2 ^ 64
  else if strEnds s "Mb" then pu (trimSuf s "Mb") * 1024 * 1024 % 2 ^ 64
  else if strEnds s "Kb" then pu (trimSuf s "Kb") * 1024 % 2 ^ 64
  else pu (trimSuf s "b")

/-- parser.go cakeParseDelayUsec: CAKE delay string to microseconds. -/
def cakeParseDelayUsec (s : String) : ℚ :=
  let s := strTrim s
  if s = "" ∨ s = "0" then 0
  else if strEnds s "us" then
    match parseFloatQ (trimSuf s "us") with
    | some v => v
    | none => 0
  else if strEnds s "ms" then
    match parseFloatQ (trimSuf s "ms") with
    | some v => v * 1000
    | none => 0
  else if strEnds s "s" then
    match parseFloatQ (trimSuf s "s") with
    | some v => v * 1000000
    | none => 0
  else 0

/-- parser.go maxDelayStr: the delay string with the highest parsed value at
the given tier index across all queues (ties and the empty best-string case
resolved exactly as the Go loop does). -/
def maxDelayStr (queues : List (List CakeTier)) (ti : Nat)
    (f : CakeTier → String) : String :=
  (queues.foldl (fun (acc : ℚ × String) q =>
    if ti < q.length then
      let s := f (q.getD ti emptyTier)
      let v := cakeParseDelayUsec s
      if v > acc.1 ∨ acc.2 = "" then (v, s) else acc
    else acc) (0, "")).2

/-- The per-queue accumulation for one output tier of aggregateCakeTiers:
counters summed (uint64), MaxLen maximised. -/
def aggTierStep (ti : Nat) (a : CakeTier) (q : List CakeTier) : CakeTier :=
  if ti < q.length then
    let t := q.getD ti emptyTier
    { a with
      Pkts := uadd64 a.Pkts t.Pkts
      Bytes := uadd64 a.Bytes t.Bytes
      WayInds := uadd64 a.WayInds t.WayInds
      WayMiss := uadd64 a.WayMiss t.WayMiss
      WayCols := uadd64 a.WayCols t.WayCols
      Drops := uadd64 a.Drops t.Drops
      Marks := uadd64 a.Marks t.Marks
      AckDrop := uadd64 a.AckDrop t.AckDrop
      SpFlows := uadd64 a.SpFlows t.SpFlows
      BkFlows := uadd64 a.BkFlows t.BkFlows
      UnFlows := uadd64 a.UnFlows t.UnFlows
      MaxLen := if t.MaxLen > a.MaxLen then t.MaxLen else a.MaxLen }
  else a

/-- parser.go aggregateCakeTiers, body of the loop over tier index ti. -/
def aggTier (queues : List (List CakeTier)) (q0 : List CakeTier) (ti : Nat) :
    CakeTier :=
  let seed := q0.getD ti emptyTier
  let base := { seed with
    Pkts := 0, Bytes := 0, WayInds := 0, WayMiss := 0, WayCols := 0
    Drops := 0, Marks := 0, AckDrop := 0, SpFlows := 0, BkFlows := 0
    UnFlows := 0, MaxLen := 0, Backlog := "" }
  let c := queues.foldl (aggTierStep ti) base
  let c := { c with
    PkDelay := maxDelayStr queues ti (fun t => t.PkDelay)
    AvDelay := maxDelayStr queues ti (fun t => t.AvDelay)
    SpDelay := maxDelayStr queues ti (fun t => t.SpDelay) }
  let backlogSum := queues.foldl (fun n q =>
    if ti < q.length then uadd64 n (parseBytesStr (q.getD ti emptyTier).Backlog)
    else n) 0
  { c with Backlog := toString backlogSum ++ "b" }

/-- parser.go aggregateCakeTiers. -/
def aggregateCakeTiers (queues : List (List CakeTier)) : List CakeTier :=
  match queues with
  | [] => []
  | q0 :: _ =>
    if q0.length = 0 then []
    else (List.range q0.length).map (aggTier queues q0)

/-- The global-counter accumulation loop of aggregateCakeMQSubQueues:
(record, backlogBytes, memUsed). -/
def aggStep (acc : CakeStats × Nat × Nat) (s : CakeStats) : CakeStats × Nat × Nat :=
  let a := acc.1
  let backlogBytes := acc.2.1
  let memUsed := acc.2.2
  ({ a with
      SentBytes := uadd64 a.SentBytes s.SentBytes
      SentPkts := uadd64 a.SentPkts s.SentPkts
      Dropped := uadd64 a.Dropped s.Dropped
      Overlimits := uadd64 a.Overlimits s.Overlimits
      Requeues := uadd64 a.Requeues s.Requeues
      BacklogPkts := uadd64 a.BacklogPkts s.BacklogPkts },
    uadd64 backlogBytes (parseBytesStr s.BacklogBytes),
    uadd64 memUsed (parseBytesStr s.MemoryUsed))

/-- parser.go aggregateCakeMQSubQueues: bootstrap from the first sub-queue,
override identity fields from the cake_mq parent, zero and re-sum the global
counters, then aggregate tiers. -/
def aggregateCakeMQSubQueues (parent : CakeStats) (subs : List CakeStats) :
    CakeStats :=
  match subs with
  | [] => parent
  | s0 :: _ =>
    let agg0 := { s0 with
      Handle := parent.Handle
      Interface := parent.Interface
      RawHeader := parent.RawHeader
      UpdatedAt := parent.UpdatedAt
      SentBytes := 0, SentPkts := 0, Dropped := 0, Overlimits := 0
      Requeues := 0, BacklogPkts := 0 }
    let res := subs.foldl aggStep (agg0, 0, 0)
    let agg := { res.1 with
      BacklogBytes := toString res.2.1 ++ "b"
      MemoryUsed := toString res.2.2 ++ "b" }
    if 0 < s0.Tiers.length then
      { agg with Tiers := aggregateCakeTiers (subs.map (fun s => s.Tiers)) }
    else agg

/-! ## Report splitting and emission (pkg/parser/parser.go, parseText) -/

/-- The block accumulator of parseText: a new block starts at every line
with the "qdisc " prefix (unless the current block is empty). -/
def splitBlocks (lines : List String) : List (List String) :=
  let acc := lines.foldl (fun (acc : List (List String) × List String) l =>
    if strStarts l "qdisc " ∧ acc.2 ≠ [] then (acc.1 ++ [acc.2], [l])
    else (acc.1, acc.2 ++ [l])) ([], [])
  if acc.2 ≠ [] then acc.1 ++ [acc.2] else acc.1

/-- parseText intermediate result: a parsed block annotated with routing
metadata (blockResult in the Go source). -/
structure blockResult where
  cs : CakeStats
  parentHandle : String
  isCakeMQ : Bool
  deriving DecidableEq, Repr

/-- The per-block classification switch of parseText. -/
def classifyBlock (now : Int) (b : List String) : Option blockResult :=
  match b with
  | [] => none
  | header :: _ =>
    if strContains header "qdisc cake_mq " then
      let p := parseCakeBlock now b
      if p.2 then some { cs := p.1, parentHandle := "", isCakeMQ := true } else none
    else if strContains header "qdisc cake " then
      let p := parseCakeBlock now b
      if p.2 then
        some { cs := p.1, parentHandle := headerParentHandle header, isCakeMQ := false }
      else none
    else none

/-- Assoc-list lookup (models Go map access). -/
def lookupKV {α β : Type} [DecidableEq α] : List (α × β) → α → Option β
  | [], _ => none
  | (k, v) :: t, x => if k = x then some v else lookupKV t x

/-- Append to a keyed list entry (models Go map-of-slice append). -/
def assocAppend {α β : Type} [DecidableEq α] :
    List (α × List β) → α → β → List (α × List β)
  | [], k, v => [(k, [v])]
  | (k2, vs) :: t, k, v =>
    if k2 = k then (k2, vs ++ [v]) :: t else (k2, vs) :: assocAppend t k v

/-- The emission switch of parseText: state is (emittedMQ keys, result). -/
def emitStep (mqKeys : List (String × String))
    (subQ : List ((String × String) × List CakeStats)) :
    List (String × String) × List CakeStats → blockResult →
    List (String × String) × List CakeStats
  | (emitted, result), r =>
    if r.isCakeMQ then
      let key := (r.cs.Interface, r.cs.Handle)
      if emitted.contains key then (emitted, result)
      else
        let subs := (lookupKV subQ key).getD []
        if 0 < subs.length then
          (emitted ++ [key], result ++ [aggregateCakeMQSubQueues r.cs subs])
        else (emitted ++ [key], result ++ [r.cs])
    else if r.parentHandle ≠ "" then
      if mqKeys.contains (r.cs.Interface, r.parentHandle) then (emitted, result)
      else (emitted, result ++ [r.cs])
    else (emitted, result ++ [r.cs])

/-- parser.go parseText (the cake_mq-aware version): split into blocks,
classify, index cake_mq parents, group sub-queues, then emit in block order. -/
def parseText (now : Int) (raw : String) : List CakeStats :=
  let blocks := splitBlocks (splitLines raw)
  let parsed := blocks.filterMap (classifyBlock now)
  let mqKeys := parsed.foldl (fun (acc : List (String × String)) r =>
    if r.isCakeMQ then acc ++ [(r.cs.Interface, r.cs.Handle)] else acc) []
  let subQ := parsed.foldl (fun (acc : List ((String × String) × List CakeStats)) r =>
    if !r.isCakeMQ && r.parentHandle != "" &&
        mqKeys.contains (r.cs.Interface, r.parentHandle) then
      assocAppend acc (r.cs.Interface, r.parentHandle) r.cs
    else acc) []
  (parsed.foldl (emitStep mqKeys subQ) ([], [])).2

/-! ## History/rate engine (pkg/history/history.go) -/

/-- history.HistorySample: one time-series point (float64 fields as ℚ). -/
structure HistorySample where
  T : Int
  Tx : ℚ
  Av : ℚ
  Pk : ℚ
  Dr : ℚ
  deriving DecidableEq, Repr

instance : Inhabited HistorySample := ⟨{ T := 0, Tx := 0, Av := 0, Pk := 0, Dr := 0 }⟩

/-- history.ifaceState: previous counters, previous observation time (seconds),
and the ring buffer (backing list of length capacity, write cursor, count). -/
structure ifaceState where
  prevTxBytes : Nat
  prevDropped : Nat
  prevTime : ℚ
  samples : List HistorySample
  head : Nat
  count : Nat
  deriving DecidableEq, Repr

/-- history.go txBytes: SentBytes when positive, else the uint64 sum of the
per-tier byte counters. -/
def txBytes (cs : CakeStats) : Nat :=
  if 0 < cs.SentBytes then cs.SentBytes
  else cs.Tiers.foldl (fun sum t => uadd64 sum t.Bytes) 0

/-- history.go newIfaceState (the time.Now() call is the same `now` passed to
Record; make allocates the backing array zeroed). -/
def newIfaceState (capacity : Nat) (cs : CakeStats) (now : ℚ) : ifaceState :=
  { prevTxBytes := txBytes cs
    prevDropped := cs.Dropped
    prevTime := now
    samples := List.replicate capacity default
    head := 0
    count := 0 }

/-- history.go (*ifaceState).push. -/
def ifaceState.push (st : ifaceState) (s : HistorySample) (capacity : Nat) :
    ifaceState :=
  { st with
    samples := st.samples.set st.head s
    head := (st.head + 1) % capacity
    count := if st.count < capacity then st.count + 1 else st.count }

/-- history.go (*ifaceState).ordered: chronological read of the ring buffer. -/
def ifaceState.ordered (st : ifaceState) (capacity : Nat) : List HistorySample :=
  if st.count = 0 then []
  else if st.count < capacity then st.samples.take st.count
  else st.samples.drop st.head ++ st.samples.take st.head

/-- history.go parseDelayMs, suffix selection: the loop tries "us", "ms", "s"
in order and breaks at the first match. -/
def delaySuffixSplit (s : String) : Option (String × String) :=
  if strEnds s "us" then some (trimSuf s "us", "us")
  else if strEnds s "ms" then some (trimSuf s "ms", "ms")
  else if strEnds s "s" then some (trimSuf s "s", "s")
  else none

/-- history.go parseDelayMs: delay string to milliseconds; empty, "0",
suffix-less or numerically unparsable input gives 0. -/
def parseDelayMs (s : String) : ℚ :=
  let s := strTrim s
  if s = "" ∨ s = "0" then 0
  else
    match delaySuffixSplit s with
    | none => 0
    | some (numStr, unit) =>
      match parseFloatQ numStr with
      | none => 0
      | some v =>
        if unit = "us" then v / 1000
        else if unit = "ms" then v
        else v * 1000

/-- history.go maxDelayMs: maximum parsed delay across tiers. -/
def maxDelayMs (tiers : List CakeTier) (f : CakeTier → String) : ℚ :=
  tiers.foldl (fun best t =>
    let v := parseDelayMs (f t)
    if v > best then v else best) 0

/-- history.HistoryStore: association list of per-interface states. -/
structure HistoryStore where
  ifaces : List (String × ifaceState)
  capacity : Nat
  deriving Repr

/-- history.go NewHistoryStore: capacity is clamped up to 2. -/
def NewHistoryStore (capacity : Nat) : HistoryStore :=
  { ifaces := [], capacity := if capacity < 2 then 2 else capacity }

/-- The body of Record's loop for an interface that already has state:
guarded rate computation, write-back of the four derived fields, one sample
pushed, previous-value state updated (history.go, Record). -/
def recordOne (capacity : Nat) (now interval : ℚ) (st : ifaceState)
    (cs : CakeStats) : ifaceState × CakeStats :=
  let elapsed0 := now - st.prevTime
  let elapsed := if elapsed0 ≤ 0 then interval else elapsed0
  let currTx := txBytes cs
  let txRate : ℚ :=
    if st.prevTxBytes ≤ currTx then ((currTx - st.prevTxBytes : ℕ) : ℚ) / elapsed
    else 0
  let drRate : ℚ :=
    if st.prevDropped ≤ cs.Dropped then
      ((cs.Dropped - st.prevDropped : ℕ) : ℚ) / elapsed
    else 0
  let avMs := maxDelayMs cs.Tiers (fun t => t.AvDelay)
  let pkMs := maxDelayMs cs.Tiers (fun t => t.PkDelay)
  let cs2 := { cs with
    TxBytesPerS := txRate, DropsPerS := drRate
    MaxAvDelayMs := avMs, MaxPkDelayMs := pkMs }
  let st2 := st.push { T := now.floor, Tx := txRate, Av := avMs, Pk := pkMs, Dr := drRate }
    capacity
  ({ st2 with prevTxBytes := currTx, prevDropped := cs.Dropped, prevTime := now }, cs2)

/-- Map update (Go map assignment: replaces the existing entry in place or
adds a new one). -/
def upsertKV {α β : Type} [DecidableEq α] : List (α × β) → α → β → List (α × β)
  | [], k, v => [(k, v)]
  | (k2, v2) :: t, k, v =>
    if k2 = k then (k, v) :: t else (k2, v2) :: upsertKV t k v

/-- history.go (*HistoryStore).Record: per-snapshot seeding or rate update,
then pruning of interfaces absent from this poll.  Returns the new store and
the snapshot list with derived fields written back (Go mutates both in
place). -/
def HistoryStore.Record (hs : HistoryStore) (stats : List CakeStats)
    (interval now : ℚ) : HistoryStore × List CakeStats :=
  let step := fun (acc : List (String × ifaceState) × List CakeStats) (cs : CakeStats) =>
    match lookupKV acc.1 cs.Interface with
    | none =>
      (upsertKV acc.1 cs.Interface (newIfaceState hs.capacity cs now), acc.2 ++ [cs])
    | some st =>
      let r := recordOne hs.capacity now interval st cs
      (upsertKV acc.1 cs.Interface r.1, acc.2 ++ [r.2])
  let folded := stats.foldl step (hs.ifaces, [])
  let active := stats.map (fun cs => cs.Interface)
  ({ ifaces := folded.1.filter (fun kv => kv.1 ∈ active), capacity := hs.capacity },
   folded.2)

/-- history.go (*HistoryStore).Snapshot: ordered copies of every non-empty
ring buffer. -/
def HistoryStore.Snapshot (hs : HistoryStore) : List (String × List HistorySample) :=
  hs.ifaces.filterMap (fun kv =>
    let samples := kv.2.ordered hs.capacity
    if 0 < samples.length then some (kv.1, samples) else none)

/-! ## Claim C3: ATM/PTM tri-state -/

/-- Claim C3 (code evaluated at the failing inputs): parseHeader maps the
token "atm" to mode "atm" and "ptm" to mode "ptm" as the claim states, but
maps "noatm" and its alias "raw" to the literal "noatm", not to the empty
string required by the claim (and by the repository's own tests
TestParseHeader_NoATM / TestParseHeader_Raw and the ATMMode documentation in
pkg/types/types.go). -/
theorem parseHeader_atm_tristate :
    (parseHeader (emptyStats 0)
      "qdisc cake 8011: dev eth0 root refcnt 2 bandwidth 100Mbit diffserv4 hosts rtt 20ms atm overhead 40").ATMMode = "atm"
  ∧ (parseHeader (emptyStats 0)
      "qdisc cake 8011: dev eth0 root refcnt 2 bandwidth 100Mbit diffserv4 hosts rtt 20ms ptm overhead 30").ATMMode = "ptm"
  ∧ (parseHeader (emptyStats 0)
      "qdisc cake 8011: dev eth0 root refcnt 2 bandwidth 100Mbit diffserv4 hosts rtt 20ms noatm overhead 0").ATMMode = "noatm"
  ∧ (parseHeader (emptyStats 0)
      "qdisc cake 8011: dev eth0 root refcnt 2 bandwidth 100Mbit diffserv4 hosts rtt 20ms raw overhead 0").ATMMode = "noatm" := by
  refine ⟨by decide, by decide, by decide, by decide⟩

/-! ## Claim C9: delay-string parsing to milliseconds -/

/-- Claim C9: "500us" parses to 0.5 ms, "1.5ms" to 1.5, "1s" to 1000; the
empty string and the literal "0" parse to 0; any string whose (trimmed) form
has no recognised suffix, or whose numeric part does not parse, yields 0
rather than failing. -/
theorem parseDelayMs_spec :
    parseDelayMs "500us" = 1 / 2
  ∧ parseDelayMs "1.5ms" = 3 / 2
  ∧ parseDelayMs "1s" = 1000
  ∧ parseDelayMs "" = 0
  ∧ parseDelayMs "0" = 0
  ∧ (∀ s, ¬(strTrim s = "" ∨ strTrim s = "0") →
      delaySuffixSplit (strTrim s) = none → parseDelayMs s = 0)
  ∧ (∀ s num unit, ¬(strTrim s = "" ∨ strTrim s = "0") →
      delaySuffixSplit (strTrim s) = some (num, unit) →
      parseFloatQ num = none → parseDelayMs s = 0) := by
  refine ⟨?_, ?_, ?_, ?_, ?_, ?_, ?_⟩
  · simp +decide [parseDelayMs, delaySuffixSplit, parseFloatQ, parseMantissa,
      parseExpPart, digitsVal, strTrim, strEnds, trimSuf]
    norm_num
  · simp +decide [parseDelayMs, delaySuffixSplit, parseFloatQ, parseMantissa,
      parseExpPart, digitsVal, strTrim, strEnds, trimSuf]
    norm_num
  · simp +decide [parseDelayMs, delaySuffixSplit, parseFloatQ, parseMantissa,
      parseExpPart, digitsVal, strTrim, strEnds, trimSuf]
  · rfl
  · rfl
  · intro s h0 h
    unfold parseDelayMs
    simp only [h0, if_false, h]
  · intro s num unit h0 h hnum
    unfold parseDelayMs
    simp only [h0, if_false, h, hnum]

/-- Witness for the hypothesis-bearing parts of parseDelayMs_spec:
"123xy" has no recognised suffix; "abcms" has one but an unparsable numeric
part; both therefore parse to 0. -/
theorem parseDelayMs_spec_witness :
    parseDelayMs "123xy" = 0 ∧ parseDelayMs "abcms" = 0 := by
  have h := parseDelayMs_spec
  exact ⟨h.2.2.2.2.2.1 "123xy" (by decide) (by decide),
         h.2.2.2.2.2.2 "abcms" "abc" "ms" (by decide) (by decide) (by decide)⟩

/-! ## Claim C7: tier-name joining -/

/-- Claim C7: in a tier header token list, "Best" followed by "Effort" joins
into the one name "Best Effort"; "Tin" followed by a token N joins into the
one name "Tin N" (so ["Tin","0","Tin","1"] gives exactly ["Tin 0","Tin 1"],
and the single-tier header ["Tin","0"] gives exactly one name, with "Tin"
recognised as a tier-header word); every other token is a standalone name
with order preserved. -/
theorem parseTierNames_spec :
    (∀ rest, parseTierNames ("Best" :: "Effort" :: rest) =
      "Best Effort" :: parseTierNames rest)
  ∧ (∀ n rest, parseTierNames ("Tin" :: n :: rest) =
      ("Tin " ++ n) :: parseTierNames rest)
  ∧ parseTierNames ["Tin", "0", "Tin", "1"] = ["Tin 0", "Tin 1"]
  ∧ parseTierNames ["Tin", "0"] = ["Tin 0"]
  ∧ isTierHeaderLine "Tin" = true
  ∧ parseTierNames ["Bulk", "Best", "Effort", "Video", "Voice"] =
      ["Bulk", "Best Effort", "Video", "Voice"]
  ∧ (∀ w rest, w ≠ "Best" → w ≠ "Tin" →
      parseTierNames (w :: rest) = w :: parseTierNames rest)
  ∧ (∀ w, parseTierNames [w] = [w])
  ∧ (∀ n rest, n ≠ "Effort" →
      parseTierNames ("Best" :: n :: rest) = "Best" :: parseTierNames (n :: rest)) := by
  refine ⟨fun _ => rfl, fun _ _ => rfl, rfl, rfl, rfl, rfl, ?_, ?_, ?_⟩
  · intro w rest h1 h2
    rcases rest with _ | ⟨r1, rest⟩
    · simp [parseTierNames]
    · simp [parseTierNames, h1, h2]
  · intro w
    simp [parseTierNames]
  · intro n rest hn
    simp [parseTierNames, hn]

/-- Witness for the hypothesis-bearing parts of parseTierNames_spec. -/
theorem parseTierNames_spec_witness :
    parseTierNames ["CS1", "Voice"] = ["CS1", "Voice"]
  ∧ parseTierNames ["Best", "Video"] = ["Best", "Video"] := by
  have h := parseTierNames_spec
  constructor
  · rw [h.2.2.2.2.2.2.1 "CS1" ["Voice"] (by decide) (by decide),
      h.2.2.2.2.2.2.2.1 "Voice"]
  · rw [h.2.2.2.2.2.2.2.2 "Video" [] (by decide), h.2.2.2.2.2.2.2.1 "Video"]


/-! ## Claim C4: ring buffer -/


theorem take_set_of_le {α : Type} (l : List α) (i k : Nat) (a : α) (h : k ≤ i) :
    (l.set i a).take k = l.take k := by
  induction l generalizing i k with
  | nil => simp
  | cons x t ih =>
    cases i with
    | zero =>
      have hk : k = 0 := by omega
      simp [hk]
    | succ i =>
      cases k with
      | zero => simp
      | succ k => simpa using ih i k (by omega)

theorem take_succ_set_self {α : Type} (l : List α) (i : Nat) (a : α) (h : i < l.length) :
    (l.set i a).take (i + 1) = l.take i ++ [a] := by
  rw [List.set_eq_take_cons_drop a h, List.take_append_eq_append_take]
  have hlen : (l.take i).length = i := by simp [List.length_take]; omega
  rw [List.take_take, hlen]
  have h1 : min (i + 1) i = i := by omega
  have h2 : i + 1 - i = 1 := by omega
  rw [h1, h2]
  simp

theorem set_last_eq {α : Type} (l : List α) (a : α) (h : 0 < l.length) :
    l.set (l.length - 1) a = l.take (l.length - 1) ++ [a] := by
  rw [List.set_eq_take_cons_drop a (by omega)]
  have h2 : l.length - 1 + 1 = l.length := by omega
  simp [h2, List.drop_length]

theorem drop_one_append {α : Type} (l1 l2 : List α) (h : 0 < l1.length) :
    (l1 ++ l2).drop 1 = l1.drop 1 ++ l2 := by
  rw [List.drop_append_eq_append_drop]
  have h2 : 1 - l1.length = 0 := by omega
  simp [h2]

def pushAll (capacity : Nat) (st : ifaceState) (xs : List HistorySample) : ifaceState :=
  xs.foldl (fun st s => st.push s capacity) st

theorem pushAll_append (C : Nat) (st : ifaceState) (xs : List HistorySample)
    (a : HistorySample) : pushAll C st (xs ++ [a]) = (pushAll C st xs).push a C := by
  simp [pushAll, List.foldl_append]

theorem push_step (C : Nat) (hC : 0 < C) (st : ifaceState) (xs : List HistorySample)
    (a : HistorySample)
    (hlen : st.samples.length = C) (hhead : st.head = xs.length % C)
    (hcount : st.count = min xs.length C)
    (hord : st.ordered C = xs.drop (xs.length - C)) :
    (st.push a C).samples.length = C
  ∧ (st.push a C).head = (xs.length + 1) % C
  ∧ (st.push a C).count = min (xs.length + 1) C
  ∧ (st.push a C).ordered C = (xs ++ [a]).drop (xs.length + 1 - C) := by
  set n := xs.length with hn
  refine ⟨by simp [ifaceState.push, hlen], ?_, ?_, ?_⟩
  · simp only [ifaceState.push, hhead, Nat.mod_add_mod]
  · simp only [ifaceState.push, hcount]
    rcases Nat.lt_or_ge n C with h | h
    · rw [if_pos (by omega)]; omega
    · rw [if_neg (by omega)]; omega
  · rcases Nat.lt_or_ge n C with hnC | hnC
    · -- buffer not yet full before this push: head = n, count = n
      have hh : st.head = n := by rw [hhead]; exact Nat.mod_eq_of_lt hnC
      have hcnt : st.count = n := by rw [hcount]; omega
      have htake : st.samples.take n = xs := by
        rcases Nat.eq_zero_or_pos n with h0 | h0
        · have hxs : xs = [] := List.length_eq_zero.mp h0
          simp [h0, hxs]
        · have h1 := hord
          rw [ifaceState.ordered, hcnt, if_neg (by omega : ¬n = 0), if_pos hnC] at h1
          rw [h1, Nat.sub_eq_zero_of_le hnC.le, List.drop_zero]
      rw [ifaceState.ordered]
      simp only [ifaceState.push, hcnt, hh]
      rw [if_pos hnC]
      rcases Nat.lt_or_ge (n + 1) C with h1 | h1
      · -- still not full after the push
        rw [if_neg (by omega : ¬n + 1 = 0), if_pos h1]
        rw [take_succ_set_self st.samples n a (by omega), htake,
          Nat.sub_eq_zero_of_le (by omega : n + 1 ≤ C), List.drop_zero]
      · -- the push exactly fills the buffer: n + 1 = C
        have hEq : n + 1 = C := by omega
        rw [if_neg (by omega : ¬n + 1 = 0), if_neg (by omega : ¬n + 1 < C)]
        rw [hEq, Nat.mod_self]
        simp only [List.drop_zero, List.take_zero, List.append_nil]
        have hset : st.samples.set n a = st.samples.take n ++ [a] := by
          have h2 := set_last_eq st.samples a (by omega)
          rwa [hlen, (by omega : C - 1 = n)] at h2
        rw [hset, htake, Nat.sub_eq_zero_of_le (by omega), List.drop_zero]
    · -- buffer already full: count = C, head = n % C
      have hcnt : st.count = C := by rw [hcount]; omega
      have hlt : n % C < C := Nat.mod_lt _ hC
      have hord2 : st.samples.drop (n % C) ++ st.samples.take (n % C) = xs.drop (n - C) := by
        have h1 := hord
        rw [ifaceState.ordered, hcnt, if_neg (by omega : ¬C = 0),
          if_neg (by omega : ¬C < C), hhead] at h1
        exact h1
      have hdropdrop : (xs ++ [a]).drop (n + 1 - C) = xs.drop (n + 1 - C) ++ [a] := by
        rw [List.drop_append_eq_append_drop]
        have h2 : n + 1 - C - n = 0 := by omega
        simp [h2]
      have hstep : xs.drop (n + 1 - C) = (xs.drop (n - C)).drop 1 := by
        rw [List.drop_drop]
        congr 1
        omega
      have hlen2 : 0 < (st.samples.drop (n % C)).length := by
        rw [List.length_drop, hlen]; omega
      rw [ifaceState.ordered]
      simp only [ifaceState.push, hcnt, hhead]
      rw [if_neg (by omega : ¬C < C)]
      rw [if_neg (by omega : ¬C = 0), if_neg (by omega : ¬C < C)]
      rw [hdropdrop, hstep, ← hord2, drop_one_append _ _ hlen2, List.drop_drop]
      rcases Nat.lt_or_ge (n % C + 1) C with h1 | h1
      · -- cursor advances without wrapping
        rw [Nat.mod_eq_of_lt h1]
        rw [List.drop_set, if_pos (by omega : n % C < n % C + 1)]
        rw [take_succ_set_self st.samples (n % C) a (by omega), List.append_assoc]
      · -- cursor wraps to 0
        have hEq : n % C + 1 = C := by omega
        rw [hEq, Nat.mod_self]
        simp only [List.drop_zero, List.take_zero, List.append_nil]
        have hset : st.samples.set (n % C) a = st.samples.take (n % C) ++ [a] := by
          have h2 := set_last_eq st.samples a (by omega)
          rwa [hlen, (by omega : C - 1 = n % C)] at h2
        rw [hset, ← hlen, List.drop_length]
        simp

theorem pushAll_inv (C : Nat) (hC : 0 < C) (cs : CakeStats) (t0 : ℚ)
    (xs : List HistorySample) :
    (pushAll C (newIfaceState C cs t0) xs).samples.length = C
  ∧ (pushAll C (newIfaceState C cs t0) xs).head = xs.length % C
  ∧ (pushAll C (newIfaceState C cs t0) xs).count = min xs.length C
  ∧ (pushAll C (newIfaceState C cs t0) xs).ordered C = xs.drop (xs.length - C) := by
  induction xs using List.reverseRecOn with
  | nil => simp [pushAll, newIfaceState, ifaceState.ordered]
  | append_singleton xs a ih =>
    obtain h := push_step C hC (pushAll C (newIfaceState C cs t0) xs) xs a
      ih.1 ih.2.1 ih.2.2.1 ih.2.2.2
    rw [pushAll_append]
    simpa using h

/-- Claim C4: for every ring buffer with configured capacity C >= 2, after any
sequence of pushes (starting from the state newIfaceState creates) the buffer
holds at most C samples (exactly min of the number pushed and C, so exactly C
once more than C have been pushed), and the ordered read returns the most
recently pushed min(n, C) samples -- the oldest having been evicted first --
in chronological order, covering both the not-yet-full and the wrapped-full
cases. -/
theorem ringBuffer_spec (C : Nat) (hC : 2 <= C) (cs : CakeStats) (t0 : ℚ)
    (xs : List HistorySample) :
    (pushAll C (newIfaceState C cs t0) xs).count ≤ C
  ∧ (pushAll C (newIfaceState C cs t0) xs).count = min xs.length C
  ∧ (C < xs.length → (pushAll C (newIfaceState C cs t0) xs).count = C)
  ∧ (pushAll C (newIfaceState C cs t0) xs).ordered C = xs.drop (xs.length - C)
  ∧ ((pushAll C (newIfaceState C cs t0) xs).ordered C).length = min xs.length C := by
  obtain ⟨h1, h2, h3, h4⟩ := pushAll_inv C (by omega) cs t0 xs
  refine ⟨by omega, h3, by omega, h4, ?_⟩
  rw [h4, List.length_drop]
  omega

theorem ringBuffer_spec_witness :
    (pushAll 2 (newIfaceState 2 (emptyStats 0) 0)
      [{ T := 1, Tx := 0, Av := 0, Pk := 0, Dr := 0 },
       { T := 2, Tx := 0, Av := 0, Pk := 0, Dr := 0 },
       { T := 3, Tx := 0, Av := 0, Pk := 0, Dr := 0 }]).ordered 2 =
      [{ T := 2, Tx := 0, Av := 0, Pk := 0, Dr := 0 },
       { T := 3, Tx := 0, Av := 0, Pk := 0, Dr := 0 }] := by
  have h := (ringBuffer_spec 2 (by omega) (emptyStats 0) 0
    [{ T := 1, Tx := 0, Av := 0, Pk := 0, Dr := 0 },
     { T := 2, Tx := 0, Av := 0, Pk := 0, Dr := 0 },
     { T := 3, Tx := 0, Av := 0, Pk := 0, Dr := 0 }]).2.2.2.1
  rw [h]
  rfl



/-! ## Claims C2, C5, C8: history/rate engine -/


theorem lookupKV_upsert_self {α β : Type} [DecidableEq α] (m : List (α × β)) (k : α) (v : β) :
    lookupKV (upsertKV m k v) k = some v := by
  induction m with
  | nil => simp [upsertKV, lookupKV]
  | cons p t ih =>
    rcases p with ⟨k2, v2⟩
    by_cases h : k2 = k
    · simp [upsertKV, h, lookupKV]
    · simp [upsertKV, h, lookupKV, ih]

theorem lookupKV_filter_not_mem (m : List (String × ifaceState)) (active : List String)
    (k : String) (hk : k ∉ active) :
    lookupKV (m.filter (fun kv => kv.1 ∈ active)) k = none := by
  induction m with
  | nil => simp [lookupKV]
  | cons p t ih =>
    rcases p with ⟨k2, v2⟩
    by_cases h2 : k2 ∈ active
    · have hne : k2 ≠ k := fun h => hk (h ▸ h2)
      simp [List.filter, h2, lookupKV, hne, ih]
    · simp [List.filter, h2, ih]

theorem lookupKV_filter_mem (m : List (String × ifaceState)) (active : List String)
    (k : String) (hk : k ∈ active) :
    lookupKV (m.filter (fun kv => kv.1 ∈ active)) k = lookupKV m k := by
  induction m with
  | nil => simp
  | cons p t ih =>
    rcases p with ⟨k2, v2⟩
    by_cases h : k2 = k
    · subst h
      simp [List.filter, hk, lookupKV, ih]
    · by_cases h2 : k2 ∈ active
      · simp [List.filter, h2, lookupKV, h, ih]
      · simp [List.filter, h2, lookupKV, h, ih]

theorem lookupKV_none_keys {α β : Type} [DecidableEq α] (m : List (α × β)) (k : α)
    (h : lookupKV m k = none) : ∀ p ∈ m, p.1 ≠ k := by
  induction m with
  | nil => simp
  | cons p t ih =>
    rcases p with ⟨k2, v2⟩
    by_cases h2 : k2 = k
    · simp [lookupKV, h2] at h
    · intro q hq
      rcases List.mem_cons.mp hq with hq | hq
      · simp [hq, h2]
      · exact ih (by simpa [lookupKV, h2] using h) q hq

theorem Record_capacity (hs : HistoryStore) (stats : List CakeStats) (interval now : ℚ) :
    (hs.Record stats interval now).1.capacity = hs.capacity := rfl

theorem Record_single_unseen (hs : HistoryStore) (cs : CakeStats) (interval now : ℚ)
    (hnew : lookupKV hs.ifaces cs.Interface = none) :
    (hs.Record [cs] interval now).2 = [cs]
  ∧ lookupKV (hs.Record [cs] interval now).1.ifaces cs.Interface =
      some (newIfaceState hs.capacity cs now) := by
  unfold HistoryStore.Record
  simp only [List.foldl_cons, List.foldl_nil, hnew, List.map]
  refine ⟨rfl, ?_⟩
  rw [lookupKV_filter_mem _ _ _ (by simp), lookupKV_upsert_self]

/-- Claim C5: on the first observation of an interface name, Record creates
the per-interface state seeded with the snapshot's transmit-byte total, drop
count and the current time, emits no history sample, and returns the
snapshot unchanged (so its four derived fields keep the zero values the
parser produced); from the second observation of that interface onward a
sample is pushed. -/
theorem record_first_observation (hs : HistoryStore) (cs : CakeStats)
    (interval now : ℚ) (hcap : 2 ≤ hs.capacity)
    (hnew : lookupKV hs.ifaces cs.Interface = none) :
    (hs.Record [cs] interval now).2 = [cs]
  ∧ lookupKV (hs.Record [cs] interval now).1.ifaces cs.Interface =
      some (newIfaceState hs.capacity cs now)
  ∧ (newIfaceState hs.capacity cs now).prevTxBytes = txBytes cs
  ∧ (newIfaceState hs.capacity cs now).prevDropped = cs.Dropped
  ∧ (newIfaceState hs.capacity cs now).prevTime = now
  ∧ (newIfaceState hs.capacity cs now).count = 0
  ∧ (newIfaceState hs.capacity cs now).ordered hs.capacity = []
  ∧ (∀ cs2 interval2 now2, cs2.Interface = cs.Interface →
      ∃ st2, lookupKV ((hs.Record [cs] interval now).1.Record [cs2] interval2 now2).1.ifaces
          cs.Interface = some st2 ∧ st2.count = 1) := by
  obtain ⟨h1, h2⟩ := Record_single_unseen hs cs interval now hnew
  refine ⟨h1, h2, rfl, rfl, rfl, rfl, by simp [newIfaceState, ifaceState.ordered], ?_⟩
  intro cs2 interval2 now2 hiface
  set r1 := (hs.Record [cs] interval now).1 with hr1
  have hlook : lookupKV r1.ifaces cs2.Interface = some (newIfaceState hs.capacity cs now) := by
    rw [hiface]; exact h2
  refine ⟨(recordOne r1.capacity now2 interval2 (newIfaceState hs.capacity cs now) cs2).1,
    ?_, ?_⟩
  · unfold HistoryStore.Record
    simp only [List.foldl_cons, List.foldl_nil, hlook, List.map]
    rw [← hiface]
    rw [lookupKV_filter_mem _ _ _ (by simp), lookupKV_upsert_self]
  · simp only [recordOne, ifaceState.push, newIfaceState]
    rw [if_pos (by simpa [Record_capacity] using (by omega : 0 < hs.capacity))]

/-- Claim C2 (amended): on the seeded path of a Record call, a current
transmit-byte total (or drop count) strictly lower than the stored previous
value yields a transmit (or drop) rate of exactly zero, for any elapsed time
or interval; and whenever the nominal poll interval is positive -- as the
poller's ticker enforces -- the derived rate fields written back into the
snapshot, which are exactly the values pushed into the history sample, are
never negative.  (Unamended, "never negative for any input" fails: see
record_negative_rate_example.) -/
theorem record_counter_reset_and_nonneg :
    (∀ capacity st cs now interval, txBytes cs < st.prevTxBytes →
      (recordOne capacity now interval st cs).2.TxBytesPerS = 0)
  ∧ (∀ capacity st cs now interval, cs.Dropped < st.prevDropped →
      (recordOne capacity now interval st cs).2.DropsPerS = 0)
  ∧ (∀ (hs : HistoryStore) (cs : CakeStats) (st : ifaceState) (interval now : ℚ),
      lookupKV hs.ifaces cs.Interface = some st →
      (hs.Record [cs] interval now).2 = [(recordOne hs.capacity now interval st cs).2])
  ∧ (∀ capacity st cs now interval, 0 < interval →
      0 ≤ (recordOne capacity now interval st cs).2.TxBytesPerS ∧
      0 ≤ (recordOne capacity now interval st cs).2.DropsPerS)
  ∧ (∀ capacity st cs now interval,
      (recordOne capacity now interval st cs).1.samples =
        st.samples.set st.head
          { T := now.floor,
            Tx := (recordOne capacity now interval st cs).2.TxBytesPerS,
            Av := (recordOne capacity now interval st cs).2.MaxAvDelayMs,
            Pk := (recordOne capacity now interval st cs).2.MaxPkDelayMs,
            Dr := (recordOne capacity now interval st cs).2.DropsPerS }) := by
  have helapsed : ∀ (now interval prevTime : ℚ), 0 < interval →
      0 ≤ (if now - prevTime ≤ 0 then interval else now - prevTime) := by
    intro now interval prevTime h
    split
    · linarith
    · linarith
  refine ⟨?_, ?_, ?_, ?_, ?_⟩
  · intro capacity st cs now interval h
    simp only [recordOne]
    rw [if_neg (by omega)]
  · intro capacity st cs now interval h
    simp only [recordOne]
    rw [if_neg (by omega)]
  · intro hs cs st interval now h
    unfold HistoryStore.Record
    simp only [List.foldl_cons, List.foldl_nil, h, List.map, List.nil_append]
  · intro capacity st cs now interval h
    constructor
    · simp only [recordOne]
      split
      · exact div_nonneg (by positivity) (helapsed now interval st.prevTime h)
      · exact le_refl 0
    · simp only [recordOne]
      split
      · exact div_nonneg (by positivity) (helapsed now interval st.prevTime h)
      · exact le_refl 0
  · intro capacity st cs now interval
    rfl

/-- Witness for record_counter_reset_and_nonneg at concrete inputs. -/
theorem record_counter_reset_witness :
    (recordOne 2 0 1
      { prevTxBytes := 10, prevDropped := 7, prevTime := 0,
        samples := List.replicate 2 default, head := 0, count := 0 }
      { emptyStats 0 with Interface := "eth0", SentBytes := 5, Dropped := 3 }).2.TxBytesPerS = 0
  ∧ (recordOne 2 0 1
      { prevTxBytes := 10, prevDropped := 7, prevTime := 0,
        samples := List.replicate 2 default, head := 0, count := 0 }
      { emptyStats 0 with Interface := "eth0", SentBytes := 5, Dropped := 3 }).2.DropsPerS = 0
  ∧ (0 ≤ (recordOne 2 (0 : ℚ) (1 : ℚ)
      { prevTxBytes := 0, prevDropped := 0, prevTime := 0,
        samples := List.replicate 2 default, head := 0, count := 0 }
      { emptyStats 0 with Interface := "eth0", SentBytes := 5, Dropped := 3 }).2.TxBytesPerS) := by
  refine ⟨record_counter_reset_and_nonneg.1 2 _ _ 0 1 (by decide),
    record_counter_reset_and_nonneg.2.1 2 _ _ 0 1 (by decide),
    (record_counter_reset_and_nonneg.2.2.2.1 2 _ _ 0 1 (by norm_num)).1⟩

/-- Claim C2 counterexample: with a negative nominal interval (-1s) and a
clock that did not advance, a higher transmit counter produces the negative
rate -5, so the claim's "never negative for any input" is false as stated. -/
theorem record_negative_rate_example :
    ((HistoryStore.Record
      { ifaces := [("eth0",
          { prevTxBytes := 0, prevDropped := 0, prevTime := 0,
            samples := List.replicate 2 default, head := 0, count := 0 })],
        capacity := 2 }
      [{ emptyStats 0 with Interface := "eth0", SentBytes := 5 }] (-1) 0).2.headD
        (emptyStats 0)).TxBytesPerS = -5 := by
  simp +decide [HistoryStore.Record, recordOne, lookupKV, txBytes, maxDelayMs,
    emptyStats, ifaceState.push]
  norm_num

/-- Claim C8: after a Record call, every interface name that had
per-interface state but was absent from that call's snapshot list is removed:
its state is no longer found, it does not appear in Snapshot's result, and if
it reappears in a later poll it is treated as a first observation (seeding
only, and the snapshot is returned unchanged). -/
theorem record_prunes_absent (hs : HistoryStore) (stats : List CakeStats)
    (interval now : ℚ) (key : String)
    (hkey : key ∉ stats.map (fun c => c.Interface)) :
    lookupKV (hs.Record stats interval now).1.ifaces key = none
  ∧ (∀ e ∈ (hs.Record stats interval now).1.Snapshot, e.1 ≠ key)
  ∧ (∀ cs2 interval2 now2, cs2.Interface = key →
      ((hs.Record stats interval now).1.Record [cs2] interval2 now2).2 = [cs2]
    ∧ lookupKV ((hs.Record stats interval now).1.Record [cs2] interval2 now2).1.ifaces key =
        some (newIfaceState hs.capacity cs2 now2)) := by
  have h1 : lookupKV (hs.Record stats interval now).1.ifaces key = none := by
    unfold HistoryStore.Record
    exact lookupKV_filter_not_mem _ _ _ hkey
  refine ⟨h1, ?_, ?_⟩
  · intro e he hk
    unfold HistoryStore.Snapshot at he
    rcases List.mem_filterMap.mp he with ⟨kv, hkv, hsome⟩
    have hne := lookupKV_none_keys _ _ h1 kv hkv
    by_cases hord : 0 < (kv.2.ordered (hs.Record stats interval now).1.capacity).length
    · rw [if_pos hord] at hsome
      cases hsome
      exact hne hk
    · rw [if_neg hord] at hsome
      cases hsome
  · intro cs2 interval2 now2 hiface
    have hnew : lookupKV (hs.Record stats interval now).1.ifaces cs2.Interface = none := by
      rw [hiface]; exact h1
    obtain ⟨ha, hb⟩ := Record_single_unseen _ cs2 interval2 now2 hnew
    rw [Record_capacity] at hb
    exact ⟨ha, by rw [← hiface]; exact hb⟩

/-- Witness for record_first_observation at concrete inputs. -/
theorem record_first_observation_witness :
    ((NewHistoryStore 2).Record [{ emptyStats 0 with Interface := "eth0" }] 1 0).2 =
      [{ emptyStats 0 with Interface := "eth0" }]
  ∧ lookupKV ((NewHistoryStore 2).Record
        [{ emptyStats 0 with Interface := "eth0" }] 1 0).1.ifaces "eth0" =
      some (newIfaceState 2 { emptyStats 0 with Interface := "eth0" } 0) := by
  have h := record_first_observation (NewHistoryStore 2)
    { emptyStats 0 with Interface := "eth0" } 1 0 (by decide) (by decide)
  exact ⟨h.1, h.2.1⟩

/-- Witness for record_prunes_absent at concrete inputs. -/
theorem record_prunes_absent_witness :
    lookupKV ((HistoryStore.Record
      { ifaces := [("old",
          { prevTxBytes := 0, prevDropped := 0, prevTime := 0,
            samples := List.replicate 2 default, head := 0, count := 0 })],
        capacity := 2 }
      [{ emptyStats 0 with Interface := "new" }] 1 0).1.ifaces) "old" = none := by
  exact (record_prunes_absent _ [{ emptyStats 0 with Interface := "new" }] 1 0 "old"
    (by decide)).1



/-! ## Claim C6: order-preserving parsing without multi-queue groups -/


theorem splitBlocks_ne_nil (lines : List String) :
    ∀ b ∈ splitBlocks lines, b ≠ [] := by
  unfold splitBlocks
  suffices h : ∀ (acc : List (List String) × List String), (∀ b ∈ acc.1, b ≠ []) →
      ∀ b ∈ (let r := lines.foldl (fun (acc : List (List String) × List String) l =>
          if strStarts l "qdisc " ∧ acc.2 ≠ [] then (acc.1 ++ [acc.2], [l])
          else (acc.1, acc.2 ++ [l])) acc;
        if r.2 ≠ [] then r.1 ++ [r.2] else r.1), b ≠ [] by
    exact h ([], []) (by simp)
  induction lines with
  | nil =>
    intro acc hacc b hb
    simp only [List.foldl_nil] at hb
    by_cases h2 : acc.2 = []
    · rw [if_neg (by simpa using h2)] at hb
      exact hacc b hb
    · rw [if_pos (by simpa using h2)] at hb
      rcases List.mem_append.mp hb with h3 | h3
      · exact hacc b h3
      · simp at h3
        subst h3
        exact h2
  | cons l t ih =>
    intro acc hacc b hb
    simp only [List.foldl_cons] at hb
    by_cases hcond : strStarts l "qdisc " ∧ acc.2 ≠ []
    · rw [if_pos hcond] at hb
      refine ih (acc.1 ++ [acc.2], [l]) ?_ b hb
      intro b2 hb2
      rcases List.mem_append.mp hb2 with h3 | h3
      · exact hacc b2 h3
      · simp at h3
        subst h3
        exact hcond.2
    · rw [if_neg hcond] at hb
      exact ih (acc.1, acc.2 ++ [l]) hacc b hb

theorem parseCakeBlock_ok (now : Int) (header : String) (rest : List String) :
    (parseCakeBlock now (header :: rest)).2 = true := rfl

theorem parsed_no_mq (now : Int) (blocks : List (List String))
    (hne : ∀ b ∈ blocks, b ≠ [])
    (hnomq : ∀ b ∈ blocks, strContains (b.headD "") "qdisc cake_mq " = false) :
    blocks.filterMap (classifyBlock now) =
      (blocks.filter (fun b => strContains (b.headD "") "qdisc cake ")).map
        (fun b => { cs := (parseCakeBlock now b).1,
                    parentHandle := headerParentHandle (b.headD ""),
                    isCakeMQ := false }) := by
  induction blocks with
  | nil => rfl
  | cons b t ih =>
    have hb := hne b (by simp)
    rcases b with _ | ⟨header, rest⟩
    · exact absurd rfl hb
    have hmq := hnomq (header :: rest) (by simp)
    simp only [List.headD_cons] at hmq
    have iht := ih (fun x hx => hne x (by simp [hx]))
      (fun x hx => hnomq x (by simp [hx]))
    cases hcake : strContains header "qdisc cake " with
    | false =>
      simp only [List.filterMap_cons, classifyBlock, hmq, hcake, Bool.false_eq_true,
        if_false, List.filter_cons, List.headD_cons]
      rw [iht]
    | true =>
      simp only [List.filterMap_cons, classifyBlock, hmq, hcake, Bool.false_eq_true,
        if_false, if_true, parseCakeBlock_ok, List.filter_cons, List.headD_cons,
        List.map_cons]
      rw [iht]


theorem mqKeys_nil (parsed : List blockResult)
    (h : ∀ r ∈ parsed, r.isCakeMQ = false) :
    parsed.foldl (fun (acc : List (String × String)) r =>
      if r.isCakeMQ then acc ++ [(r.cs.Interface, r.cs.Handle)] else acc) [] = [] := by
  suffices h2 : ∀ acc : List (String × String), parsed.foldl (fun acc r =>
      if r.isCakeMQ then acc ++ [(r.cs.Interface, r.cs.Handle)] else acc) acc = acc by
    exact h2 []
  induction parsed with
  | nil => intro acc; rfl
  | cons r t ih =>
    intro acc
    have hr := h r (by simp)
    simp only [List.foldl_cons, hr, Bool.false_eq_true, if_false]
    exact ih (fun x hx => h x (by simp [hx])) acc

theorem emit_no_mq (subQ : List ((String × String) × List CakeStats))
    (parsed : List blockResult) (acc : List (String × String) × List CakeStats)
    (h : ∀ r ∈ parsed, r.isCakeMQ = false) :
    (parsed.foldl (emitStep [] subQ) acc).2 = acc.2 ++ parsed.map (fun r => r.cs) := by
  induction parsed generalizing acc with
  | nil => simp
  | cons r t ih =>
    have hr := h r (by simp)
    rcases acc with ⟨emitted, result⟩
    have hstep : emitStep [] subQ (emitted, result) r = (emitted, result ++ [r.cs]) := by
      simp only [emitStep]
      rw [if_neg (by simp [hr])]
      by_cases hp : r.parentHandle = ""
      · rw [if_neg (by simpa using hp)]
      · rw [if_pos (by simpa using hp)]
        rw [if_neg (by simp [List.contains])]
    simp only [List.foldl_cons, hstep]
    rw [ih _ (fun x hx => h x (by simp [hx]))]
    simp [List.append_assoc]

/-- Claim C6: for any raw report text whose blocks contain no multi-queue
(cake_mq) parent, the text parser returns exactly one snapshot per block whose
header identifies a CAKE discipline, in block order; blocks of non-CAKE
disciplines are discarded and contribute no snapshot. -/
theorem parseText_no_mq (now : Int) (raw : String)
    (hnomq : ∀ b ∈ splitBlocks (splitLines raw),
      strContains (b.headD "") "qdisc cake_mq " = false) :
    parseText now raw =
      ((splitBlocks (splitLines raw)).filter
        (fun b => strContains (b.headD "") "qdisc cake ")).map
        (fun b => (parseCakeBlock now b).1) := by
  have hne := splitBlocks_ne_nil (splitLines raw)
  simp only [parseText]
  rw [parsed_no_mq now _ hne hnomq]
  rw [mqKeys_nil _ (by
    intro r hr
    rcases List.mem_map.mp hr with ⟨b, hb, rfl⟩
    rfl)]
  rw [emit_no_mq _ _ _ (by
    intro r hr
    rcases List.mem_map.mp hr with ⟨b, hb, rfl⟩
    rfl)]
  simp [List.map_map, Function.comp]

/-- Witness for parseText_no_mq: a report with two cake blocks and one
fq_codel block yields exactly two snapshots. -/
theorem parseText_no_mq_witness :
    (parseText 0 "qdisc cake 1: dev a root\n Sent 9 bytes 1 pkt (dropped 0, overlimits 0 requeues 0)\nqdisc fq_codel 0: dev b root\nqdisc cake 2: dev c root").length = 2 := by
  rw [parseText_no_mq 0 _ (by decide)]
  decide



/-! ## Claim C10: childless multi-queue parent blocks -/


theorem applyFlagTok_counters (cs : CakeStats) (tok : String) :
    (applyFlagTok cs tok).SentBytes = cs.SentBytes
  ∧ (applyFlagTok cs tok).SentPkts = cs.SentPkts
  ∧ (applyFlagTok cs tok).Dropped = cs.Dropped
  ∧ (applyFlagTok cs tok).Overlimits = cs.Overlimits
  ∧ (applyFlagTok cs tok).Requeues = cs.Requeues
  ∧ (applyFlagTok cs tok).BacklogPkts = cs.BacklogPkts
  ∧ (applyFlagTok cs tok).Tiers = cs.Tiers := by
  unfold applyFlagTok
  split <;> simp

theorem parseHeaderTokens_counters (cs : CakeStats) (toks : List String) :
    (parseHeaderTokens cs toks).SentBytes = cs.SentBytes
  ∧ (parseHeaderTokens cs toks).SentPkts = cs.SentPkts
  ∧ (parseHeaderTokens cs toks).Dropped = cs.Dropped
  ∧ (parseHeaderTokens cs toks).Overlimits = cs.Overlimits
  ∧ (parseHeaderTokens cs toks).Requeues = cs.Requeues
  ∧ (parseHeaderTokens cs toks).BacklogPkts = cs.BacklogPkts
  ∧ (parseHeaderTokens cs toks).Tiers = cs.Tiers := by
  induction cs, toks using parseHeaderTokens.induct <;>
    simp_all [parseHeaderTokens, applyFlagTok_counters]

theorem parseHeader_counters (cs : CakeStats) (line : String) :
    (parseHeader cs line).SentBytes = cs.SentBytes
  ∧ (parseHeader cs line).Dropped = cs.Dropped
  ∧ (parseHeader cs line).Tiers = cs.Tiers
  ∧ (parseHeader cs line).SentPkts = cs.SentPkts
  ∧ (parseHeader cs line).Overlimits = cs.Overlimits
  ∧ (parseHeader cs line).Requeues = cs.Requeues
  ∧ (parseHeader cs line).BacklogPkts = cs.BacklogPkts := by
  unfold parseHeader
  by_cases h : (strFields (strTrim line)).length < 5
  · rw [if_pos h]
    exact ⟨rfl, rfl, rfl, rfl, rfl, rfl, rfl⟩
  · rw [if_neg h]
    obtain ⟨h1, h2, h3, h4, h5, h6, h7⟩ := parseHeaderTokens_counters
      { cs with Handle := trimSuf ((strFields (strTrim line)).getD 2 "") ":",
                Interface := (strFields (strTrim line)).getD 4 "",
                Direction := "egress" }
      ((strFields (strTrim line)).drop 5)
    exact ⟨h1, h3, h7, h2, h4, h5, h6⟩

/-- Claim C10 (amended): a multi-queue parent block with no matching child in
the report is emitted as exactly the one snapshot its block parses to, and
parsing is total (never crashes); in the practical case where the parent
block consists of its header line alone, that snapshot carries only identity
fields -- all global counters zero and an empty tier list.  (Unamended the
claim is false: a parent block that carries a Sent line is fully parsed, see
mq_parent_with_stats_example.) -/
theorem mq_parent_no_children (now : Int) (raw : String) (c : CakeStats)
    (hparsed : (splitBlocks (splitLines raw)).filterMap (classifyBlock now) =
      [{ cs := c, parentHandle := "", isCakeMQ := true }]) :
    parseText now raw = [c]
  ∧ (∀ (t : Int) (h : String),
      (parseCakeBlock t [h]).1.SentBytes = 0 ∧ (parseCakeBlock t [h]).1.SentPkts = 0 ∧
      (parseCakeBlock t [h]).1.Dropped = 0 ∧ (parseCakeBlock t [h]).1.Overlimits = 0 ∧
      (parseCakeBlock t [h]).1.Requeues = 0 ∧ (parseCakeBlock t [h]).1.BacklogPkts = 0 ∧
      (parseCakeBlock t [h]).1.Tiers = []) := by
  constructor
  · simp only [parseText, hparsed]
    simp [emitStep, lookupKV, List.contains]
  · intro t h
    simp only [parseCakeBlock, List.foldl_nil]
    have hp := parseHeader_counters { emptyStats t with RawHeader := strTrim h } h
    have hT : (parseHeader { emptyStats t with RawHeader := strTrim h } h).Tiers = [] := by
      rw [hp.2.2.1]; rfl
    rw [if_neg (by simp [hT])]
    refine ⟨?_, ?_, ?_, ?_, ?_, ?_, hT⟩
    · rw [hp.1]; rfl
    · rw [hp.2.2.2.1]; rfl
    · rw [hp.2.1]; rfl
    · rw [hp.2.2.2.2.1]; rfl
    · rw [hp.2.2.2.2.2.1]; rfl
    · rw [hp.2.2.2.2.2.2]; rfl

/-- Claim C10 counterexample: a cake_mq parent block with no children that
contains a "Sent 5 bytes ..." line is emitted as one snapshot whose SentBytes
is 5, not zero, refuting "its global counters are zero" as stated. -/
theorem mq_parent_with_stats_example :
    (parseText 0 "qdisc cake_mq 1: dev eth0 root refcnt 6 \n Sent 5 bytes 1 pkt (dropped 0, overlimits 0 requeues 0)").length = 1
  ∧ ((parseText 0 "qdisc cake_mq 1: dev eth0 root refcnt 6 \n Sent 5 bytes 1 pkt (dropped 0, overlimits 0 requeues 0)").headD
      (emptyStats 0)).SentBytes = 5 := by
  constructor
  · decide
  · decide

/-- Witness for mq_parent_no_children: a header-only cake_mq parent block
yields exactly its own snapshot, with zero counters. -/
theorem mq_parent_no_children_witness :
    parseText 0 "qdisc cake_mq 1: dev eth0 root refcnt 6 " =
      [(parseCakeBlock 0 ["qdisc cake_mq 1: dev eth0 root refcnt 6 "]).1] ∧
    (parseText 0 "qdisc cake_mq 1: dev eth0 root refcnt 6 ").headD (emptyStats 0) =
      (parseCakeBlock 0 ["qdisc cake_mq 1: dev eth0 root refcnt 6 "]).1 ∧
    ((parseText 0 "qdisc cake_mq 1: dev eth0 root refcnt 6 ").headD (emptyStats 0)).SentBytes = 0 := by
  have h := mq_parent_no_children 0 "qdisc cake_mq 1: dev eth0 root refcnt 6 "
    (parseCakeBlock 0 ["qdisc cake_mq 1: dev eth0 root refcnt 6 "]).1 (by decide)
  refine ⟨h.1, by rw [h.1]; rfl, ?_⟩
  rw [h.1]
  exact (h.2 0 "qdisc cake_mq 1: dev eth0 root refcnt 6 ").1



/-! ## Claim C1: multi-queue aggregation -/


/-- The per-tier values present at tier index ti across the child queues. -/
def tierVals {α : Type} (queues : List (List CakeTier)) (ti : Nat)
    (g : CakeTier → α) : List α :=
  queues.filterMap (fun q =>
    if ti < q.length then some (g (q.getD ti emptyTier)) else none)

theorem aggTierStep_maxlen (ti : Nat) (queues : List (List CakeTier)) (a : CakeTier) :
    (queues.foldl (aggTierStep ti) a).MaxLen =
      (tierVals queues ti (fun t => t.MaxLen)).foldl
        (fun m v => if v > m then v else m) a.MaxLen := by
  induction queues generalizing a with
  | nil => rfl
  | cons q rest ih =>
    by_cases h : ti < q.length
    · simp only [List.foldl_cons, tierVals, List.filterMap_cons, h, if_pos h]
      rw [ih]
      simp [aggTierStep, h, tierVals]
    · simp only [List.foldl_cons, tierVals, List.filterMap_cons, h, if_neg h]
      rw [ih]
      simp [aggTierStep, h, tierVals]

theorem aggTierStep_config (ti : Nat) (queues : List (List CakeTier)) (a : CakeTier) :
    (queues.foldl (aggTierStep ti) a).Name = a.Name
  ∧ (queues.foldl (aggTierStep ti) a).Thresh = a.Thresh
  ∧ (queues.foldl (aggTierStep ti) a).Target = a.Target
  ∧ (queues.foldl (aggTierStep ti) a).Interval = a.Interval
  ∧ (queues.foldl (aggTierStep ti) a).Quantum = a.Quantum := by
  induction queues generalizing a with
  | nil => exact ⟨rfl, rfl, rfl, rfl, rfl⟩
  | cons q rest ih =>
    by_cases h : ti < q.length <;>
      simpa [aggTierStep, h] using ih _

theorem foldl_natmax_le (l : List Nat) (a : Nat) :
    (a ≤ l.foldl (fun m v => if v > m then v else m) a)
  ∧ (∀ v ∈ l, v ≤ l.foldl (fun m v => if v > m then v else m) a) := by
  induction l generalizing a with
  | nil => simp
  | cons x t ih =>
    obtain ⟨ih1, ih2⟩ := ih (if x > a then x else a)
    refine ⟨le_trans (by split <;> omega) ih1, ?_⟩
    intro v hv
    rcases List.mem_cons.mp hv with hv | hv
    · subst hv
      exact le_trans (by split <;> omega) ih1
    · exact ih2 v hv

theorem foldl_natmax_mem (l : List Nat) (a : Nat) :
    l.foldl (fun m v => if v > m then v else m) a = a
  ∨ l.foldl (fun m v => if v > m then v else m) a ∈ l := by
  induction l generalizing a with
  | nil => simp
  | cons x t ih =>
    rcases ih (if x > a then x else a) with h | h
    · simp only [List.foldl_cons] at *
      rw [h]
      split
      · right; simp
      · left; rfl
    · right
      simp only [List.foldl_cons]
      exact List.mem_cons_of_mem _ h

theorem cakeParseDelayUsec_empty : cakeParseDelayUsec "" = 0 := rfl

theorem maxDelayStr_fold_inv (ti : Nat) (f : CakeTier → String)
    (queues : List (List CakeTier)) (acc : ℚ × String)
    (hnn : ∀ s ∈ tierVals queues ti f, 0 ≤ cakeParseDelayUsec s)
    (hacc1 : acc.1 = cakeParseDelayUsec acc.2) :
    (queues.foldl (fun (acc : ℚ × String) q =>
      if ti < q.length then
        let s := f (q.getD ti emptyTier)
        let v := cakeParseDelayUsec s
        if v > acc.1 ∨ acc.2 = "" then (v, s) else acc
      else acc) acc).1 =
      cakeParseDelayUsec (queues.foldl (fun (acc : ℚ × String) q =>
        if ti < q.length then
          let s := f (q.getD ti emptyTier)
          let v := cakeParseDelayUsec s
          if v > acc.1 ∨ acc.2 = "" then (v, s) else acc
        else acc) acc).2
  ∧ ((queues.foldl (fun (acc : ℚ × String) q =>
      if ti < q.length then
        let s := f (q.getD ti emptyTier)
        let v := cakeParseDelayUsec s
        if v > acc.1 ∨ acc.2 = "" then (v, s) else acc
      else acc) acc).2 = acc.2
    ∨ (queues.foldl (fun (acc : ℚ × String) q =>
      if ti < q.length then
        let s := f (q.getD ti emptyTier)
        let v := cakeParseDelayUsec s
        if v > acc.1 ∨ acc.2 = "" then (v, s) else acc
      else acc) acc).2 ∈ tierVals queues ti f)
  ∧ acc.1 ≤ (queues.foldl (fun (acc : ℚ × String) q =>
      if ti < q.length then
        let s := f (q.getD ti emptyTier)
        let v := cakeParseDelayUsec s
        if v > acc.1 ∨ acc.2 = "" then (v, s) else acc
      else acc) acc).1
  ∧ (∀ s ∈ tierVals queues ti f, cakeParseDelayUsec s ≤
      (queues.foldl (fun (acc : ℚ × String) q =>
        if ti < q.length then
          let s := f (q.getD ti emptyTier)
          let v := cakeParseDelayUsec s
          if v > acc.1 ∨ acc.2 = "" then (v, s) else acc
        else acc) acc).1) := by
  induction queues generalizing acc with
  | nil =>
    refine ⟨hacc1, Or.inl rfl, le_refl _, ?_⟩
    intro s hs
    simp [tierVals] at hs
  | cons q rest ih =>
    by_cases h : ti < q.length
    · have hvals : tierVals (q :: rest) ti f =
        f (q.getD ti emptyTier) :: tierVals rest ti f := by
        simp [tierVals, List.filterMap_cons, h]
      by_cases hupd : cakeParseDelayUsec (f (q.getD ti emptyTier)) > acc.1 ∨ acc.2 = ""
      · -- the fold updates to (v, s)
        have hnn2 : ∀ s ∈ tierVals rest ti f, 0 ≤ cakeParseDelayUsec s := by
          intro s hs
          exact hnn s (by rw [hvals]; exact List.mem_cons_of_mem _ hs)
        obtain ⟨ih1, ih2, ih3, ih4⟩ := ih
          (cakeParseDelayUsec (f (q.getD ti emptyTier)), f (q.getD ti emptyTier))
          hnn2 rfl
        simp only [List.foldl_cons, if_pos h, if_pos hupd] at *
        have hle : acc.1 ≤ cakeParseDelayUsec (f (q.getD ti emptyTier)) := by
          rcases hupd with hupd | hupd
          · linarith
          · rw [hacc1, hupd, cakeParseDelayUsec_empty]
            exact hnn _ (by rw [hvals]; exact List.mem_cons_self _ _)
        refine ⟨ih1, ?_, le_trans hle ih3, ?_⟩
        · rcases ih2 with h2 | h2
          · right; rw [hvals, h2]; exact List.mem_cons_self _ _
          · right; rw [hvals]; exact List.mem_cons_of_mem _ h2
        · intro s hs
          rw [hvals] at hs
          rcases List.mem_cons.mp hs with hs | hs
          · subst hs; exact ih3
          · exact ih4 s hs
      · -- no update
        have hnn2 : ∀ s ∈ tierVals rest ti f, 0 ≤ cakeParseDelayUsec s := by
          intro s hs
          exact hnn s (by rw [hvals]; exact List.mem_cons_of_mem _ hs)
        obtain ⟨ih1, ih2, ih3, ih4⟩ := ih acc hnn2 hacc1
        simp only [List.foldl_cons, if_pos h, if_neg hupd] at *
        push_neg at hupd
        refine ⟨ih1, ?_, ih3, ?_⟩
        · rcases ih2 with h2 | h2
          · exact Or.inl h2
          · right; rw [hvals]; exact List.mem_cons_of_mem _ h2
        · intro s hs
          rw [hvals] at hs
          rcases List.mem_cons.mp hs with hs | hs
          · subst hs
            exact le_trans hupd.1 ih3
          · exact ih4 s hs
    · have hvals : tierVals (q :: rest) ti f = tierVals rest ti f := by
        simp [tierVals, List.filterMap_cons, h]
      obtain ⟨ih1, ih2, ih3, ih4⟩ := ih acc (by rw [hvals] at hnn; exact hnn) hacc1
      simp only [List.foldl_cons, if_neg h] at *
      refine ⟨ih1, ?_, ih3, ?_⟩
      · rcases ih2 with h2 | h2
        · exact Or.inl h2
        · right; rw [hvals]; exact h2
      · intro s hs
        rw [hvals] at hs
        exact ih4 s hs

theorem maxDelayStr_spec (queues : List (List CakeTier)) (ti : Nat)
    (f : CakeTier → String)
    (hnn : ∀ s ∈ tierVals queues ti f, 0 ≤ cakeParseDelayUsec s)
    (hne : tierVals queues ti f ≠ []) :
    maxDelayStr queues ti f ∈ tierVals queues ti f
  ∧ ∀ s ∈ tierVals queues ti f,
      cakeParseDelayUsec s ≤ cakeParseDelayUsec (maxDelayStr queues ti f) := by
  induction queues with
  | nil => simp [tierVals] at hne
  | cons q rest ih =>
    by_cases h : ti < q.length
    · have hvals : tierVals (q :: rest) ti f =
        f (q.getD ti emptyTier) :: tierVals rest ti f := by
        simp [tierVals, List.filterMap_cons, h]
      have hnn2 : ∀ s ∈ tierVals rest ti f, 0 ≤ cakeParseDelayUsec s := by
        intro s hs
        exact hnn s (by rw [hvals]; exact List.mem_cons_of_mem _ hs)
      obtain ⟨ih1, ih2, ih3, ih4⟩ := maxDelayStr_fold_inv ti f rest
        (cakeParseDelayUsec (f (q.getD ti emptyTier)), f (q.getD ti emptyTier))
        hnn2 rfl
      have hm : maxDelayStr (q :: rest) ti f =
        (rest.foldl (fun (acc : ℚ × String) q =>
          if ti < q.length then
            let s := f (q.getD ti emptyTier)
            let v := cakeParseDelayUsec s
            if v > acc.1 ∨ acc.2 = "" then (v, s) else acc
          else acc)
          (cakeParseDelayUsec (f (q.getD ti emptyTier)), f (q.getD ti emptyTier))).2 := by
        unfold maxDelayStr
        simp only [List.foldl_cons, if_pos h]
        simp
      constructor
      · rw [hm, hvals]
        rcases ih2 with h2 | h2
        · rw [h2]; exact List.mem_cons_self _ _
        · exact List.mem_cons_of_mem _ h2
      · intro s hs
        rw [hvals] at hs
        rw [hm, ← ih1]
        rcases List.mem_cons.mp hs with hs | hs
        · subst hs; exact ih3
        · exact ih4 s hs
    · have hvals : tierVals (q :: rest) ti f = tierVals rest ti f := by
        simp [tierVals, List.filterMap_cons, h]
      have hm : maxDelayStr (q :: rest) ti f = maxDelayStr rest ti f := by
        unfold maxDelayStr
        simp only [List.foldl_cons, if_neg h]
      rw [hvals, hm]
      exact ih (by rw [hvals] at hnn; exact hnn) (by rw [hvals] at hne; exact hne)

theorem foldl_uadd64_sum (l : List Nat) (init : Nat) (h : init + l.sum < 2 ^ 64) :
    l.foldl uadd64 init = init + l.sum := by
  induction l generalizing init with
  | nil => simp
  | cons x t ih =>
    simp only [List.foldl_cons]
    have hx : uadd64 init x = init + x := by
      unfold uadd64
      exact Nat.mod_eq_of_lt (by simp [List.sum_cons] at h; omega)
    rw [hx, ih (init + x) (by simp [List.sum_cons] at h ⊢; omega)]
    simp [List.sum_cons]
    omega

theorem aggStep_fold (subs : List CakeStats) (acc : CakeStats × Nat × Nat) :
    (subs.foldl aggStep acc).1.SentBytes =
      (subs.map (fun s => s.SentBytes)).foldl uadd64 acc.1.SentBytes
  ∧ (subs.foldl aggStep acc).1.SentPkts =
      (subs.map (fun s => s.SentPkts)).foldl uadd64 acc.1.SentPkts
  ∧ (subs.foldl aggStep acc).1.Dropped =
      (subs.map (fun s => s.Dropped)).foldl uadd64 acc.1.Dropped
  ∧ (subs.foldl aggStep acc).1.Overlimits =
      (subs.map (fun s => s.Overlimits)).foldl uadd64 acc.1.Overlimits
  ∧ (subs.foldl aggStep acc).1.Requeues =
      (subs.map (fun s => s.Requeues)).foldl uadd64 acc.1.Requeues
  ∧ (subs.foldl aggStep acc).1.BacklogPkts =
      (subs.map (fun s => s.BacklogPkts)).foldl uadd64 acc.1.BacklogPkts
  ∧ (subs.foldl aggStep acc).1.Handle = acc.1.Handle
  ∧ (subs.foldl aggStep acc).1.Interface = acc.1.Interface
  ∧ (subs.foldl aggStep acc).1.RawHeader = acc.1.RawHeader
  ∧ (subs.foldl aggStep acc).1.UpdatedAt = acc.1.UpdatedAt
  ∧ (subs.foldl aggStep acc).1.Bandwidth = acc.1.Bandwidth
  ∧ (subs.foldl aggStep acc).1.DiffservMode = acc.1.DiffservMode
  ∧ (subs.foldl aggStep acc).1.RTT = acc.1.RTT
  ∧ (subs.foldl aggStep acc).1.Overhead = acc.1.Overhead
  ∧ (subs.foldl aggStep acc).1.ATMMode = acc.1.ATMMode
  ∧ (subs.foldl aggStep acc).1.NATEnabled = acc.1.NATEnabled
  ∧ (subs.foldl aggStep acc).1.DualMode = acc.1.DualMode
  ∧ (subs.foldl aggStep acc).1.Direction = acc.1.Direction
  ∧ (subs.foldl aggStep acc).1.MemoryTotal = acc.1.MemoryTotal
  ∧ (subs.foldl aggStep acc).1.Tiers = acc.1.Tiers := by
  induction subs generalizing acc with
  | nil =>
    refine ⟨rfl, rfl, rfl, rfl, rfl, rfl, rfl, rfl, rfl, rfl, rfl, rfl, rfl, rfl,
      rfl, rfl, rfl, rfl, rfl, rfl⟩
  | cons s t ih =>
    simpa [aggStep] using ih (aggStep acc s)

theorem aggTier_fields (queues : List (List CakeTier)) (q0 : List CakeTier) (ti : Nat) :
    (aggTier queues q0 ti).Name = (q0.getD ti emptyTier).Name
  ∧ (aggTier queues q0 ti).Thresh = (q0.getD ti emptyTier).Thresh
  ∧ (aggTier queues q0 ti).Target = (q0.getD ti emptyTier).Target
  ∧ (aggTier queues q0 ti).Interval = (q0.getD ti emptyTier).Interval
  ∧ (aggTier queues q0 ti).Quantum = (q0.getD ti emptyTier).Quantum
  ∧ (aggTier queues q0 ti).PkDelay = maxDelayStr queues ti (fun t => t.PkDelay)
  ∧ (aggTier queues q0 ti).AvDelay = maxDelayStr queues ti (fun t => t.AvDelay)
  ∧ (aggTier queues q0 ti).SpDelay = maxDelayStr queues ti (fun t => t.SpDelay)
  ∧ (aggTier queues q0 ti).MaxLen =
      (tierVals queues ti (fun t => t.MaxLen)).foldl
        (fun m v => if v > m then v else m) 0 := by
  obtain ⟨h1, h2, h3, h4, h5⟩ := aggTierStep_config ti queues
    { q0.getD ti emptyTier with
      Pkts := 0, Bytes := 0, WayInds := 0, WayMiss := 0, WayCols := 0
      Drops := 0, Marks := 0, AckDrop := 0, SpFlows := 0, BkFlows := 0
      UnFlows := 0, MaxLen := 0, Backlog := "" }
  have h6 := aggTierStep_maxlen ti queues
    { q0.getD ti emptyTier with
      Pkts := 0, Bytes := 0, WayInds := 0, WayMiss := 0, WayCols := 0
      Drops := 0, Marks := 0, AckDrop := 0, SpFlows := 0, BkFlows := 0
      UnFlows := 0, MaxLen := 0, Backlog := "" }
  exact ⟨h1, h2, h3, h4, h5, rfl, rfl, rfl, h6⟩

theorem foldl_natmax_spec (l : List Nat) (hl : l ≠ []) :
    l.foldl (fun m v => if v > m then v else m) 0 ∈ l
  ∧ ∀ v ∈ l, v ≤ l.foldl (fun m v => if v > m then v else m) 0 := by
  obtain ⟨hinit, hub⟩ := foldl_natmax_le l 0
  refine ⟨?_, hub⟩
  rcases foldl_natmax_mem l 0 with h | h
  · rcases l with _ | ⟨x, t⟩
    · exact absurd rfl hl
    · have hx := hub x (by simp)
      rw [h] at hx
      have hx0 : x = 0 := by omega
      rw [h, ← hx0]
      simp
  · exact h

theorem mem_tierVals {α : Type} (queues : List (List CakeTier)) (ti : Nat)
    (g : CakeTier → α) (s : α) (hs : s ∈ tierVals queues ti g) :
    ∃ q, q ∈ queues ∧ ti < q.length ∧ s = g (q.getD ti emptyTier) := by
  rcases List.mem_filterMap.mp hs with ⟨q, hq, heq⟩
  by_cases h : ti < q.length
  · rw [if_pos h] at heq
    exact ⟨q, hq, h, (Option.some_inj.mp heq).symm⟩
  · rw [if_neg h] at heq
    cases heq

theorem aggregateCakeTiers_getD (q0 : List CakeTier) (qrest : List (List CakeTier))
    (ti : Nat) (hti : ti < q0.length) :
    (aggregateCakeTiers (q0 :: qrest)).length = q0.length
  ∧ (aggregateCakeTiers (q0 :: qrest)).getD ti emptyTier =
      aggTier (q0 :: qrest) q0 ti := by
  have hne : ¬q0.length = 0 := by omega
  constructor
  · simp [aggregateCakeTiers, hne]
  · have hlen : ((List.range q0.length).map (aggTier (q0 :: qrest) q0)).length = q0.length := by
      simp
    rw [aggregateCakeTiers]
    rw [if_neg hne]
    rw [List.getD_eq_getElem _ _ (by rw [hlen]; exact hti)]
    simp

/-- Claim C1: the merged snapshot produced by the multi-queue aggregator has
identity fields (handle, interface, raw header, timestamp) from the cake_mq
parent and shared configuration (bandwidth, diffserv mode, RTT, overhead,
ATM mode, NAT flag, flow-isolation mode, direction, memory total) from the
first child; the global counters (sent bytes/packets, drops, overlimits,
requeues, backlog packets) are the sums over all children (uint64 sums --
hence the no-overflow hypothesis); and, per tier, configuration comes from
the first child, max-packet-length is the maximum over the children present
at that tier index, and each delay string is a child's string whose parsed
value is greatest among the children (given that the delay strings parse to
non-negative values, as tc delay strings do) -- a maximum, not an average. -/
theorem cakeMQ_aggregation (parent s0 : CakeStats) (rest : List CakeStats)
    (hov : ((s0 :: rest).map (fun s => s.SentBytes)).sum < 2 ^ 64
         ∧ ((s0 :: rest).map (fun s => s.SentPkts)).sum < 2 ^ 64
         ∧ ((s0 :: rest).map (fun s => s.Dropped)).sum < 2 ^ 64
         ∧ ((s0 :: rest).map (fun s => s.Overlimits)).sum < 2 ^ 64
         ∧ ((s0 :: rest).map (fun s => s.Requeues)).sum < 2 ^ 64
         ∧ ((s0 :: rest).map (fun s => s.BacklogPkts)).sum < 2 ^ 64) :
    (aggregateCakeMQSubQueues parent (s0 :: rest)).Handle = parent.Handle
  ∧ (aggregateCakeMQSubQueues parent (s0 :: rest)).Interface = parent.Interface
  ∧ (aggregateCakeMQSubQueues parent (s0 :: rest)).RawHeader = parent.RawHeader
  ∧ (aggregateCakeMQSubQueues parent (s0 :: rest)).UpdatedAt = parent.UpdatedAt
  ∧ (aggregateCakeMQSubQueues parent (s0 :: rest)).Bandwidth = s0.Bandwidth
  ∧ (aggregateCakeMQSubQueues parent (s0 :: rest)).DiffservMode = s0.DiffservMode
  ∧ (aggregateCakeMQSubQueues parent (s0 :: rest)).RTT = s0.RTT
  ∧ (aggregateCakeMQSubQueues parent (s0 :: rest)).Overhead = s0.Overhead
  ∧ (aggregateCakeMQSubQueues parent (s0 :: rest)).ATMMode = s0.ATMMode
  ∧ (aggregateCakeMQSubQueues parent (s0 :: rest)).NATEnabled = s0.NATEnabled
  ∧ (aggregateCakeMQSubQueues parent (s0 :: rest)).DualMode = s0.DualMode
  ∧ (aggregateCakeMQSubQueues parent (s0 :: rest)).Direction = s0.Direction
  ∧ (aggregateCakeMQSubQueues parent (s0 :: rest)).MemoryTotal = s0.MemoryTotal
  ∧ (aggregateCakeMQSubQueues parent (s0 :: rest)).SentBytes =
      ((s0 :: rest).map (fun s => s.SentBytes)).sum
  ∧ (aggregateCakeMQSubQueues parent (s0 :: rest)).SentPkts =
      ((s0 :: rest).map (fun s => s.SentPkts)).sum
  ∧ (aggregateCakeMQSubQueues parent (s0 :: rest)).Dropped =
      ((s0 :: rest).map (fun s => s.Dropped)).sum
  ∧ (aggregateCakeMQSubQueues parent (s0 :: rest)).Overlimits =
      ((s0 :: rest).map (fun s => s.Overlimits)).sum
  ∧ (aggregateCakeMQSubQueues parent (s0 :: rest)).Requeues =
      ((s0 :: rest).map (fun s => s.Requeues)).sum
  ∧ (aggregateCakeMQSubQueues parent (s0 :: rest)).BacklogPkts =
      ((s0 :: rest).map (fun s => s.BacklogPkts)).sum
  ∧ (0 < s0.Tiers.length →
      (aggregateCakeMQSubQueues parent (s0 :: rest)).Tiers =
        aggregateCakeTiers ((s0 :: rest).map (fun s => s.Tiers)))
  ∧ (∀ (q0 : List CakeTier) (qrest : List (List CakeTier)) (ti : Nat),
      ti < q0.length →
      (aggregateCakeTiers (q0 :: qrest)).length = q0.length
    ∧ ((aggregateCakeTiers (q0 :: qrest)).getD ti emptyTier).Name =
        (q0.getD ti emptyTier).Name
    ∧ ((aggregateCakeTiers (q0 :: qrest)).getD ti emptyTier).Thresh =
        (q0.getD ti emptyTier).Thresh
    ∧ ((aggregateCakeTiers (q0 :: qrest)).getD ti emptyTier).Target =
        (q0.getD ti emptyTier).Target
    ∧ ((aggregateCakeTiers (q0 :: qrest)).getD ti emptyTier).Interval =
        (q0.getD ti emptyTier).Interval
    ∧ ((aggregateCakeTiers (q0 :: qrest)).getD ti emptyTier).Quantum =
        (q0.getD ti emptyTier).Quantum
    ∧ ((aggregateCakeTiers (q0 :: qrest)).getD ti emptyTier).MaxLen ∈
        tierVals (q0 :: qrest) ti (fun t => t.MaxLen)
    ∧ (∀ v ∈ tierVals (q0 :: qrest) ti (fun t => t.MaxLen),
        v ≤ ((aggregateCakeTiers (q0 :: qrest)).getD ti emptyTier).MaxLen)
    ∧ ((∀ s ∈ tierVals (q0 :: qrest) ti (fun t => t.PkDelay),
          0 ≤ cakeParseDelayUsec s) →
        ((aggregateCakeTiers (q0 :: qrest)).getD ti emptyTier).PkDelay ∈
          tierVals (q0 :: qrest) ti (fun t => t.PkDelay)
      ∧ ∀ s ∈ tierVals (q0 :: qrest) ti (fun t => t.PkDelay),
          cakeParseDelayUsec s ≤ cakeParseDelayUsec
            (((aggregateCakeTiers (q0 :: qrest)).getD ti emptyTier).PkDelay))
    ∧ ((∀ s ∈ tierVals (q0 :: qrest) ti (fun t => t.AvDelay),
          0 ≤ cakeParseDelayUsec s) →
        ((aggregateCakeTiers (q0 :: qrest)).getD ti emptyTier).AvDelay ∈
          tierVals (q0 :: qrest) ti (fun t => t.AvDelay)
      ∧ ∀ s ∈ tierVals (q0 :: qrest) ti (fun t => t.AvDelay),
          cakeParseDelayUsec s ≤ cakeParseDelayUsec
            (((aggregateCakeTiers (q0 :: qrest)).getD ti emptyTier).AvDelay))
    ∧ ((∀ s ∈ tierVals (q0 :: qrest) ti (fun t => t.SpDelay),
          0 ≤ cakeParseDelayUsec s) →
        ((aggregateCakeTiers (q0 :: qrest)).getD ti emptyTier).SpDelay ∈
          tierVals (q0 :: qrest) ti (fun t => t.SpDelay)
      ∧ ∀ s ∈ tierVals (q0 :: qrest) ti (fun t => t.SpDelay),
          cakeParseDelayUsec s ≤ cakeParseDelayUsec
            (((aggregateCakeTiers (q0 :: qrest)).getD ti emptyTier).SpDelay))) := by
  have key := aggStep_fold (s0 :: rest)
    ({ s0 with
        Handle := parent.Handle
        Interface := parent.Interface
        RawHeader := parent.RawHeader
        UpdatedAt := parent.UpdatedAt
        SentBytes := 0, SentPkts := 0, Dropped := 0, Overlimits := 0
        Requeues := 0, BacklogPkts := 0 }, 0, 0)
  obtain ⟨k1, k2, k3, k4, k5, k6, k7, k8, k9, k10, k11, k12, k13, k14, k15,
    k16, k17, k18, k19, k20⟩ := key
  obtain ⟨o1, o2, o3, o4, o5, o6⟩ := hov
  have hs1 := foldl_uadd64_sum ((s0 :: rest).map (fun s => s.SentBytes)) 0 (by simpa using o1)
  have hs2 := foldl_uadd64_sum ((s0 :: rest).map (fun s => s.SentPkts)) 0 (by simpa using o2)
  have hs3 := foldl_uadd64_sum ((s0 :: rest).map (fun s => s.Dropped)) 0 (by simpa using o3)
  have hs4 := foldl_uadd64_sum ((s0 :: rest).map (fun s => s.Overlimits)) 0 (by simpa using o4)
  have hs5 := foldl_uadd64_sum ((s0 :: rest).map (fun s => s.Requeues)) 0 (by simpa using o5)
  have hs6 := foldl_uadd64_sum ((s0 :: rest).map (fun s => s.BacklogPkts)) 0 (by simpa using o6)
  refine ⟨?_, ?_, ?_, ?_, ?_, ?_, ?_, ?_, ?_, ?_, ?_, ?_, ?_, ?_, ?_, ?_, ?_,
    ?_, ?_, ?_, ?_⟩
  · simp only [aggregateCakeMQSubQueues]
    split <;> exact k7.trans rfl
  · simp only [aggregateCakeMQSubQueues]
    split <;> exact k8.trans rfl
  · simp only [aggregateCakeMQSubQueues]
    split <;> exact k9.trans rfl
  · simp only [aggregateCakeMQSubQueues]
    split <;> exact k10.trans rfl
  · simp only [aggregateCakeMQSubQueues]
    split <;> exact k11.trans rfl
  · simp only [aggregateCakeMQSubQueues]
    split <;> exact k12.trans rfl
  · simp only [aggregateCakeMQSubQueues]
    split <;> exact k13.trans rfl
  · simp only [aggregateCakeMQSubQueues]
    split <;> exact k14.trans rfl
  · simp only [aggregateCakeMQSubQueues]
    split <;> exact k15.trans rfl
  · simp only [aggregateCakeMQSubQueues]
    split <;> exact k16.trans rfl
  · simp only [aggregateCakeMQSubQueues]
    split <;> exact k17.trans rfl
  · simp only [aggregateCakeMQSubQueues]
    split <;> exact k18.trans rfl
  · simp only [aggregateCakeMQSubQueues]
    split <;> exact k19.trans rfl
  · simp only [aggregateCakeMQSubQueues]
    split <;> exact k1.trans (hs1.trans (Nat.zero_add _))
  · simp only [aggregateCakeMQSubQueues]
    split <;> exact k2.trans (hs2.trans (Nat.zero_add _))
  · simp only [aggregateCakeMQSubQueues]
    split <;> exact k3.trans (hs3.trans (Nat.zero_add _))
  · simp only [aggregateCakeMQSubQueues]
    split <;> exact k4.trans (hs4.trans (Nat.zero_add _))
  · simp only [aggregateCakeMQSubQueues]
    split <;> exact k5.trans (hs5.trans (Nat.zero_add _))
  · simp only [aggregateCakeMQSubQueues]
    split <;> exact k6.trans (hs6.trans (Nat.zero_add _))
  · intro hT
    simp only [aggregateCakeMQSubQueues]
    rw [if_pos hT]
  · intro q0 qrest ti hti
    obtain ⟨hlen, hgetd⟩ := aggregateCakeTiers_getD q0 qrest ti hti
    obtain ⟨f1, f2, f3, f4, f5, f6, f7, f8, f9⟩ := aggTier_fields (q0 :: qrest) q0 ti
    have hvne : tierVals (q0 :: qrest) ti (fun t => t.MaxLen) ≠ [] := by
      simp [tierVals, List.filterMap_cons, hti]
    obtain ⟨m1, m2⟩ := foldl_natmax_spec _ hvne
    refine ⟨hlen, by rw [hgetd]; exact f1, by rw [hgetd]; exact f2,
      by rw [hgetd]; exact f3, by rw [hgetd]; exact f4, by rw [hgetd]; exact f5,
      ?_, ?_, ?_, ?_, ?_⟩
    · rw [hgetd, f9]
      exact m1
    · intro v hv
      rw [hgetd, f9]
      exact m2 v hv
    · intro hnnd
      have hne2 : tierVals (q0 :: qrest) ti (fun t => t.PkDelay) ≠ [] := by
        simp [tierVals, List.filterMap_cons, hti]
      obtain ⟨d1, d2⟩ := maxDelayStr_spec (q0 :: qrest) ti _ hnnd hne2
      exact ⟨by rw [hgetd, f6]; exact d1, fun s hs => by rw [hgetd, f6]; exact d2 s hs⟩
    · intro hnnd
      have hne2 : tierVals (q0 :: qrest) ti (fun t => t.AvDelay) ≠ [] := by
        simp [tierVals, List.filterMap_cons, hti]
      obtain ⟨d1, d2⟩ := maxDelayStr_spec (q0 :: qrest) ti _ hnnd hne2
      exact ⟨by rw [hgetd, f7]; exact d1, fun s hs => by rw [hgetd, f7]; exact d2 s hs⟩
    · intro hnnd
      have hne2 : tierVals (q0 :: qrest) ti (fun t => t.SpDelay) ≠ [] := by
        simp [tierVals, List.filterMap_cons, hti]
      obtain ⟨d1, d2⟩ := maxDelayStr_spec (q0 :: qrest) ti _ hnnd hne2
      exact ⟨by rw [hgetd, f8]; exact d1, fun s hs => by rw [hgetd, f8]; exact d2 s hs⟩

theorem cakeParseDelayUsec_400us : cakeParseDelayUsec "400us" = 400 := by
  simp +decide [cakeParseDelayUsec, parseFloatQ, parseMantissa, parseExpPart,
    digitsVal, strTrim, strEnds, trimSuf]

theorem cakeParseDelayUsec_600us : cakeParseDelayUsec "600us" = 600 := by
  simp +decide [cakeParseDelayUsec, parseFloatQ, parseMantissa, parseExpPart,
    digitsVal, strTrim, strEnds, trimSuf]

/-- Concrete cake_mq fixtures from the aggregation example in the spec. -/
def mqTierA : CakeTier :=
  { emptyTier with Name := "Best Effort", MaxLen := 16000, PkDelay := "400us" }

def mqTierB : CakeTier :=
  { emptyTier with Name := "Best Effort", MaxLen := 24000, PkDelay := "600us" }

def mqParentW : CakeStats :=
  { emptyStats 0 with Interface := "eth0", Handle := "1" }

def mqChildA : CakeStats :=
  { emptyStats 0 with
      Interface := "eth0"
      SentBytes := 200000000
      Dropped := 100
      Tiers := [mqTierA] }

def mqChildB : CakeStats :=
  { emptyStats 0 with
      Interface := "eth0"
      SentBytes := 250000000
      Dropped := 150
      Tiers := [mqTierB] }

/-- Witness for cakeMQ_aggregation at the spec example: 200,000,000 +
250,000,000 bytes aggregate to 450,000,000; drops 100 + 150 = 250; identity
from the parent; tier max-packet-length takes the larger child value and the
tier delay string is the child string with the larger parsed value. -/
theorem cakeMQ_aggregation_witness :
    (aggregateCakeMQSubQueues mqParentW [mqChildA, mqChildB]).SentBytes = 450000000
  ∧ (aggregateCakeMQSubQueues mqParentW [mqChildA, mqChildB]).Dropped = 250
  ∧ (aggregateCakeMQSubQueues mqParentW [mqChildA, mqChildB]).Handle = "1"
  ∧ ((aggregateCakeTiers [[mqTierA], [mqTierB]]).getD 0 emptyTier).MaxLen = 24000
  ∧ ((aggregateCakeTiers [[mqTierA], [mqTierB]]).getD 0 emptyTier).PkDelay = "600us" := by
  have h := cakeMQ_aggregation mqParentW mqChildA [mqChildB]
    (by refine ⟨?_, ?_, ?_, ?_, ?_, ?_⟩ <;> decide)
  refine ⟨?_, ?_, ?_, ?_, ?_⟩
  · rw [h.2.2.2.2.2.2.2.2.2.2.2.2.2.1]
    decide
  · rw [h.2.2.2.2.2.2.2.2.2.2.2.2.2.2.2.1]
    decide
  · rw [h.1]
    rfl
  · obtain ⟨hlen, f1, f2, f3, f4, f5, hmem, hub, hpk, hav, hsp⟩ :=
      h.2.2.2.2.2.2.2.2.2.2.2.2.2.2.2.2.2.2.2.2 [mqTierA] [[mqTierB]] 0 (by decide)
    have hv : tierVals [[mqTierA], [mqTierB]] 0 (fun t => t.MaxLen) =
        [16000, 24000] := by decide
    rw [hv] at hmem hub
    have h24 := hub 24000 (by simp)
    rcases List.mem_cons.mp hmem with h2 | h2
    · omega
    · rcases List.mem_cons.mp h2 with h3 | h3
      · exact h3
      · simp at h3
  · obtain ⟨hlen, f1, f2, f3, f4, f5, hmem, hub, hpk, hav, hsp⟩ :=
      h.2.2.2.2.2.2.2.2.2.2.2.2.2.2.2.2.2.2.2.2 [mqTierA] [[mqTierB]] 0 (by decide)
    have hv : tierVals [[mqTierA], [mqTierB]] 0 (fun t => t.PkDelay) =
        ["400us", "600us"] := by decide
    have hnn : ∀ s ∈ tierVals [[mqTierA], [mqTierB]] 0 (fun t => t.PkDelay),
        0 ≤ cakeParseDelayUsec s := by
      rw [hv]
      intro s hs
      rcases List.mem_cons.mp hs with h2 | h2
      · rw [h2, cakeParseDelayUsec_400us]; norm_num
      · rcases List.mem_cons.mp h2 with h3 | h3
        · rw [h3, cakeParseDelayUsec_600us]; norm_num
        · simp at h3
    obtain ⟨dmem, dub⟩ := hpk hnn
    rw [hv] at dmem dub
    have h6 := dub "600us" (by simp)
    rcases List.mem_cons.mp dmem with h2 | h2
    · rw [h2] at h6 ⊢
      rw [cakeParseDelayUsec_400us, cakeParseDelayUsec_600us] at h6
      norm_num at h6
    · rcases List.mem_cons.mp h2 with h3 | h3
      · exact h3
      · simp at h3


end Cake
